import Mathlib

/-!
Verification development for the goclj core: the tokenizer (Go package
`parse`, file `lex.go`) and the formatter's transform engine
(`format/transform.go`), via a shallow embedding.

The lexer is embedded as a pure state machine: the Go channel is modelled
by the list of tokens the driver returns, and the `bufio.Reader` plus its
one-rune unread buffer is modelled by a `List Char` input together with a
`lastRead` slot.  The transform engine operates on an explicit tree of
nodes; the node capability contract and the `goclj` helper predicates are
not part of the sources and are modelled from the specification where
noted.
-/

namespace Parse

/-- Source position, from `Pos` in the lexer.  The source name is omitted:
the scanner carries it unchanged and never inspects it. -/
structure Pos where
  offset : Nat
  line : Nat
  col : Nat
  deriving DecidableEq, Repr

/-- Token types, from the `tokType` constants. -/
inductive TokType where
  | tokEOF
  | tokApostrophe
  | tokAtSign
  | tokBacktick
  | tokBool
  | tokCharLiteral
  | tokCircumflex
  | tokComment
  | tokDispatch
  | tokKeyword
  | tokLambdaArg
  | tokLeftBrace
  | tokLeftBracket
  | tokLeftParen
  | tokNil
  | tokNumber
  | tokOctothorpe
  | tokRightBrace
  | tokRightBracket
  | tokRightParen
  | tokString
  | tokSymbol
  | tokTilde
  | tokError
  deriving DecidableEq, Repr

/-- A token, from `token`: type, start position and literal contents.
The Go string `val` is modelled as its list of runes. -/
structure Token where
  typ : TokType
  pos : Pos
  val : List Char
  deriving DecidableEq, Repr

/-- Scanner state, from `lexer`.  `lastRead` models `lastPos` together
with the reader's one-rune unread buffer. -/
structure Lexer where
  input : List Char
  pos : Pos
  start : Pos
  lastRead : Option (Char × Pos)
  val : List Char
  deriving DecidableEq, Repr

/-- Position advance performed by `next`: `Offset` and `Col` grow by the
rune's UTF-8 byte width `w`; a newline bumps `Line` and resets `Col`. -/
def advancePos (p : Pos) (r : Char) : Pos :=
  { offset := p.offset + r.utf8Size
    line := if r = '\n' then p.line + 1 else p.line
    col := if r = '\n' then 1 else p.col + r.utf8Size }

/-- State change performed by a successful `next` that read rune `r` with
remaining input `rest`: advance the position, remember the pre-read
position for `back`, and append the rune to `val`. -/
def readRune (l : Lexer) (r : Char) (rest : List Char) : Lexer :=
  { input := rest
    pos := advancePos l.pos r
    start := l.start
    lastRead := some (r, l.pos)
    val := l.val ++ [r] }

/-- From `next`: read one rune, or report end of input. -/
def next (l : Lexer) : Option (Char × Lexer) :=
  match l.input with
  | [] => none
  | r :: rest => some (r, readRune l r rest)

/-- From `back`: push the last rune back and restore the position.  A
`back` with no preceding `next` panics in Go; that path is unreachable in
the scanner and is modelled as the identity. -/
def back (l : Lexer) : Lexer :=
  match l.lastRead with
  | none => l
  | some (r, p) =>
    { input := r :: l.input
      pos := p
      start := l.start
      lastRead := none
      val := l.val.dropLast }

/-- From `skip`: discard the scanned runes and restart the pending token
at the current position. -/
def skip (l : Lexer) : Lexer :=
  { l with start := l.pos, val := [] }

/-- From `emit`: build a token from the scanned runes, then `skip`. -/
def emit (l : Lexer) (typ : TokType) : Token × Lexer :=
  ({ typ := typ, pos := l.start, val := l.val }, skip l)

/-- From `synth`: a token with given contents at the current `start`,
without touching the scanner state. -/
def synth (l : Lexer) (typ : TokType) (v : List Char) : Token :=
  { typ := typ, pos := l.start, val := v }

/-- Fueled loop body of `scanWhile`.  The fuel is always instantiated with
the length of the remaining input, which the loop can never exceed, so the
fuel-exhausted case coincides with the end-of-input case. -/
def scanWhileF (f : Char → Bool) : Nat → Lexer → Lexer
  | 0, l => l
  | n + 1, l =>
    match l.input with
    | [] => l
    | r :: rest =>
      if f r then scanWhileF f n (readRune l r rest)
      else back (readRune l r rest)

/-- From `scanWhile`: scan while `f` holds of the current rune; the first
rune for which `f` fails is pushed back. -/
def scanWhile (f : Char → Bool) (l : Lexer) : Lexer :=
  scanWhileF f l.input.length l

/-- Fueled loop body of `scanUntil` (fuel as in `scanWhileF`). -/
def scanUntilF (cs : List Char) : Nat → Lexer → Lexer
  | 0, l => l
  | n + 1, l =>
    match l.input with
    | [] => l
    | r :: rest =>
      if r ∈ cs then readRune l r rest
      else scanUntilF cs n (readRune l r rest)

/-- From `scanUntil`: scan until a rune in `cs` (or end of input) is
reached; the discovered rune, if any, is consumed. -/
def scanUntil (cs : List Char) (l : Lexer) : Lexer :=
  scanUntilF cs l.input.length l

/-- Fueled scanning loop of `lexString` with its `escaped` flag.  Returns
`none` when end of input arrives before the closing quote. -/
def lexStringLoopF : Nat → Lexer → Bool → Option (Token × Lexer)
  | 0, _, _ => none
  | n + 1, l, escaped =>
    match l.input with
    | [] => none
    | r :: rest =>
      if r = '"' then
        if !escaped then some (emit (readRune l r rest) .tokString)
        else lexStringLoopF n (readRune l r rest) false
      else if r = '\\' then lexStringLoopF n (readRune l r rest) (!escaped)
      else lexStringLoopF n (readRune l r rest) false

/-- The scanning loop of `lexString`, fueled by the input length. -/
def lexStringLoop (l : Lexer) (escaped : Bool) : Option (Token × Lexer) :=
  lexStringLoopF l.input.length l escaped

/-- From `isWhitespace`: `unicode.IsSpace(r) || r == ','`.  The Unicode
White_Space code points recognized by `unicode.IsSpace` are listed
explicitly. -/
def isWhitespace (r : Char) : Bool :=
  r == '\t' || r == '\n' || r == '\x0b' || r == '\x0c' || r == '\r' ||
  r == ' ' || r.toNat == 0x85 || r.toNat == 0xa0 || r.toNat == 0x1680 ||
  (decide (0x2000 ≤ r.toNat) && decide (r.toNat ≤ 0x200a)) ||
  r.toNat == 0x2028 || r.toNat == 0x2029 || r.toNat == 0x202f ||
  r.toNat == 0x205f || r.toNat == 0x3000 || r == ','

/-- From `isSymbolChar`: `unicode.IsLetter(r) || unicode.IsDigit(r)` plus
a fixed punctuation set.  Go consults the full Unicode tables; this
embedding covers their ASCII fragment, on which every input appearing in
this development lies and where the two coincide. -/
def isSymbolChar (r : Char) : Bool :=
  r.isAlpha || r.isDigit ||
  (r == '*' || r == '+' || r == '!' || r == '-' || r == '_' || r == '?' ||
   r == '/' || r == '.' || r == ':' || r == '$' || r == '=' || r == '>' ||
   r == '<' || r == '&')

/-- The scanner states, one per `stateFn`. -/
inductive LexState where
  | lexOuter
  | lexComment
  | lexString
  | lexCharLiteral
  | lexKeyword
  | lexLambdaArg
  | lexDispatch
  | lexNumber
  | lexSymbol
  | lexWhitespace
  deriving DecidableEq, Repr

/-- Runes that make `lexDispatch` synthesize a two-character dispatch
token, from its `switch`. -/
def dispatchRunes : List Char := ['{', '(', '\'', '"', '_']

/-- The scanner driver, from `run` together with all the `stateFn`s: a
fueled function whose result is the sequence of tokens sent on the
channel.  Each state transition consumes one unit of fuel; `lexTokens`
supplies more fuel than any input can use, so the fuel-exhausted case is
unreachable there. -/
def runState (fuel : Nat) (l : Lexer) (s : LexState) : List Token :=
  match fuel with
  | 0 => []
  | fuel + 1 =>
    match s with
    | .lexOuter =>
      match next l with
      | none => [(emit l .tokEOF).1]
      | some (r, l1) =>
        if r = ';' then runState fuel l1 .lexComment
        else if r = '"' then runState fuel l1 .lexString
        else if r = '\\' then runState fuel l1 .lexCharLiteral
        else if r = ':' then runState fuel l1 .lexKeyword
        else if r = '%' then runState fuel l1 .lexLambdaArg
        else if r = '#' then runState fuel l1 .lexDispatch
        else if r = '+' || r = '-' then
          match next l1 with
          | none =>
            let p := emit l1 .tokSymbol
            [p.1, (emit p.2 .tokEOF).1]
          | some (r2, l2) =>
            if '0' ≤ r2 ∧ r2 ≤ '9' then runState fuel (back l2) .lexNumber
            else runState fuel (back l2) .lexSymbol
        else if r = '\'' then
          let p := emit l1 .tokApostrophe
          p.1 :: runState fuel p.2 .lexOuter
        else if r = '@' then
          let p := emit l1 .tokAtSign
          p.1 :: runState fuel p.2 .lexOuter
        else if r = '`' then
          let p := emit l1 .tokBacktick
          p.1 :: runState fuel p.2 .lexOuter
        else if r = '^' then
          let p := emit l1 .tokCircumflex
          p.1 :: runState fuel p.2 .lexOuter
        else if r = '{' then
          let p := emit l1 .tokLeftBrace
          p.1 :: runState fuel p.2 .lexOuter
        else if r = '[' then
          let p := emit l1 .tokLeftBracket
          p.1 :: runState fuel p.2 .lexOuter
        else if r = '(' then
          let p := emit l1 .tokLeftParen
          p.1 :: runState fuel p.2 .lexOuter
        else if r = '}' then
          let p := emit l1 .tokRightBrace
          p.1 :: runState fuel p.2 .lexOuter
        else if r = ']' then
          let p := emit l1 .tokRightBracket
          p.1 :: runState fuel p.2 .lexOuter
        else if r = ')' then
          let p := emit l1 .tokRightParen
          p.1 :: runState fuel p.2 .lexOuter
        else if r = '~' then
          let p := emit l1 .tokTilde
          p.1 :: runState fuel p.2 .lexOuter
        else if isWhitespace r then runState fuel l1 .lexWhitespace
        else if '0' ≤ r ∧ r ≤ '9' then runState fuel l1 .lexNumber
        else if isSymbolChar r then runState fuel l1 .lexSymbol
        else
          [{ typ := .tokError, pos := l1.start,
             val := "unrecognized token starting with ".toList ++ [r] }]
    | .lexComment =>
      let p := emit (scanUntil ['\n'] l) .tokComment
      p.1 :: runState fuel p.2 .lexOuter
    | .lexString =>
      match lexStringLoop l false with
      | some (t, l1) => t :: runState fuel l1 .lexOuter
      | none =>
        [{ typ := .tokError, pos := l.start,
           val := "reached EOF before string closing quote".toList }]
    | .lexCharLiteral =>
      match next l with
      | none =>
        [{ typ := .tokError, pos := l.start,
           val := "invalid character literal".toList }]
      | some (_, l1) =>
        let p := emit (scanWhile isSymbolChar l1) .tokCharLiteral
        p.1 :: runState fuel p.2 .lexOuter
    | .lexKeyword =>
      let p := emit (scanWhile isSymbolChar l) .tokKeyword
      p.1 :: runState fuel p.2 .lexOuter
    | .lexLambdaArg =>
      let p := emit (scanWhile isSymbolChar l) .tokLambdaArg
      p.1 :: runState fuel p.2 .lexOuter
    | .lexDispatch =>
      match next l with
      | none => [(emit l .tokOctothorpe).1]
      | some (r, l1) =>
        let v := l1.val
        let l2 := skip (back l1)
        if r ∈ dispatchRunes then
          synth l2 .tokDispatch v :: runState fuel l2 .lexOuter
        else runState fuel l2 .lexOuter
    | .lexNumber =>
      let p := emit (scanWhile isSymbolChar l) .tokNumber
      p.1 :: runState fuel p.2 .lexOuter
    | .lexSymbol =>
      let p := emit (scanWhile isSymbolChar l) .tokSymbol
      p.1 :: runState fuel p.2 .lexOuter
    | .lexWhitespace =>
      runState fuel (skip (scanWhile isWhitespace l)) .lexOuter

/-- The initial scanner state, from `lex`. -/
def lexInit (s : List Char) : Lexer :=
  { input := s
    pos := { offset := 0, line := 1, col := 1 }
    start := { offset := 0, line := 1, col := 1 }
    lastRead := none
    val := [] }

/-- The full token sequence the lexer emits for input `s`: the contents of
the token channel of `lex` + `run`.  The fuel bound exceeds the possible
number of state transitions (at most two per input rune, plus the final
states). -/
def lexTokens (s : List Char) : List Token :=
  runState (2 * s.length + 4) (lexInit s) .lexOuter

end Parse

namespace GoFormat

/-- Modelled from the spec: the node contract of the external parser that
the transform engine consumes (spec sections 3 and 6).  A node is either a
composite (list, vector, map, set, function literal) exposing an ordered
child sequence, or an atom (symbol, keyword, string, number, comment,
newline) carrying its literal text.  The constructor names follow the
`parse` package's node type names used by `transform.go`. -/
inductive Node where
  | ListNode (children : List Node)
  | VectorNode (children : List Node)
  | MapNode (children : List Node)
  | SetNode (children : List Node)
  | FnLiteralNode (children : List Node)
  | SymbolNode (val : String)
  | KeywordNode (val : String)
  | StringNode (val : String)
  | NumberNode (val : String)
  | CommentNode (text : String)
  | NewlineNode

/-- Modelled from the spec: `Children()` — the ordered children of a
node; atoms have none. -/
def Node.children : Node → List Node
  | .ListNode cs | .VectorNode cs | .MapNode cs | .SetNode cs
  | .FnLiteralNode cs => cs
  | _ => []

/-- Modelled from the spec: `SetChildren()` — replace the children of a
composite node; the transforms never call it on an atom, where it is
modelled as the identity. -/
def Node.setChildren : Node → List Node → Node
  | .ListNode _, cs => .ListNode cs
  | .VectorNode _, cs => .VectorNode cs
  | .MapNode _, cs => .MapNode cs
  | .SetNode _, cs => .SetNode cs
  | .FnLiteralNode _, cs => .FnLiteralNode cs
  | n, _ => n

/-- Modelled from the spec: `goclj.Comment`. -/
def isComment : Node → Bool
  | .CommentNode _ => true
  | _ => false

/-- Modelled from the spec: `goclj.Newline`. -/
def isNewline : Node → Bool
  | .NewlineNode => true
  | _ => false

/-- Modelled from the spec: `goclj.Keyword`. -/
def isKeyword : Node → Bool
  | .KeywordNode _ => true
  | _ => false

/-- Modelled from the spec: `goclj.Vector`. -/
def isVector : Node → Bool
  | .VectorNode _ => true
  | _ => false

/-- A semantic node in the sense of the spec's invariant: neither a
newline node nor a comment node. -/
def isSemantic (n : Node) : Bool := !(isNewline n || isComment n)

/-- Modelled from the spec: `goclj.FnFormSymbol(n, name)` — a list whose
first child is the symbol `name`. -/
def fnFormSymbol (n : Node) (name : String) : Bool :=
  match n with
  | .ListNode (.SymbolNode s :: _) => s == name
  | _ => false

/-- Modelled from the spec: `goclj.FnFormKeyword(n, names...)` — a list
whose first child is a keyword among `names`. -/
def fnFormKeyword (n : Node) (names : List String) : Bool :=
  match n with
  | .ListNode (.KeywordNode s :: _) => names.contains s
  | _ => false

/-- From `listOrVector`. -/
def listOrVector : Node → Bool
  | .ListNode _ | .VectorNode _ => true
  | _ => false

/-- From `importRequire`: an import/require entry with its associated
comment nodes. -/
structure ImportRequire where
  commentsAbove : List Node
  commentBeside : Option Node
  node : Node

/-- From `importRequireList.Less`, on the wrapped nodes. -/
def lessIR (n1 n2 : Node) : Bool :=
  match n1 with
  | .SymbolNode s1 =>
    match n2 with
    | .SymbolNode s2 => decide (s1 < s2)
    | _ => true
  | _ =>
    if listOrVector n1 then
      if listOrVector n2 then
        match n1.children with
        | [] => true
        | c1 :: _ =>
          match n2.children with
          | [] => false
          | c2 :: _ =>
            match c1 with
            | .SymbolNode p1 =>
              match c2 with
              | .SymbolNode p2 => decide (p1 < p2)
              | _ => true
            | _ => false
      else false
    else false

/-- `Less` on entries, from `importRequireList.Less` (which compares
`l[i].Node` with `l[j].Node`). -/
def lessEntry (a b : ImportRequire) : Bool := lessIR a.node b.node

/-- One leftward-bubbling insertion of Go's `insertionSort`, expressed on
the reversed already-sorted prefix: `x` moves left past `y` exactly while
`less x y`. -/
def insertRight (less : ImportRequire → ImportRequire → Bool)
    (x : ImportRequire) : List ImportRequire → List ImportRequire
  | [] => [x]
  | y :: ys => if less x y then y :: insertRight less x ys else x :: y :: ys

/-- Go's `sort.Stable` as called by `sortImportRequire`.  `sort.Stable`
insertion-sorts blocks of twenty elements and then merges them stably
with `symMerge`; on at most twenty entries that is exactly this
insertion sort.  Beyond twenty entries the two can differ when `Less` is
not a strict weak order, so every general theorem about this model
either restricts itself to at most twenty entries or (as in the
pairwise-incomparable case, where the real algorithm performs no swap
and no rotation at all) states a fact that holds of both. -/
def sortStable (less : ImportRequire → ImportRequire → Bool)
    (l : List ImportRequire) : List ImportRequire :=
  (l.foldl (fun acc x => insertRight less x acc) []).reverse

/-- `sorted[len(sorted)-1].CommentBeside = node` from the comment case of
the partition loop; the empty case is unreachable (the assignment is
guarded by `afterSemanticNode`, which only an entry sets). -/
def setBesideLast : List ImportRequire → Node → List ImportRequire
  | [], _ => []
  | [ir], c => [{ ir with commentBeside := some c }]
  | x :: xs, c => x :: setBesideLast xs c

/-- One step of the partition loop at the top of `sortImportRequire`.
The state is `(sorted, lineComments, afterSemanticNode)`. -/
def partStep (st : List ImportRequire × List Node × Bool) (node : Node) :
    List ImportRequire × List Node × Bool :=
  match st with
  | (sorted, lineComments, afterSemanticNode) =>
    if isComment node then
      if afterSemanticNode then
        (setBesideLast sorted node, lineComments, afterSemanticNode)
      else (sorted, lineComments ++ [node], afterSemanticNode)
    else if isNewline node then (sorted, lineComments, false)
    else
      (sorted ++ [{ commentsAbove := lineComments, commentBeside := none,
                    node := node }],
       [], true)

/-- The partition loop of `sortImportRequire` over `nodes[1:]`. -/
def partitionIR (nodesTail : List Node) :
    List ImportRequire × List Node × Bool :=
  nodesTail.foldl partStep ([], [], false)

/-- Comments each followed by a fresh newline node, as emitted for
leading comments and for the unattached trailing comments. -/
def commentPairs : List Node → List Node
  | [] => []
  | c :: cs => c :: .NewlineNode :: commentPairs cs

/-- The nodes re-emitted for one sorted entry: leading comments each
followed by a newline, the entry node, an optional same-line trailing
comment, then a newline. -/
def blockOf (ir : ImportRequire) : List Node :=
  commentPairs ir.commentsAbove ++ [ir.node] ++
    (match ir.commentBeside with
     | some cn => [cn]
     | none => []) ++ [.NewlineNode]

/-- Concatenation of the per-entry blocks. -/
def blocksOf : List ImportRequire → List Node
  | [] => []
  | ir :: rest => blockOf ir ++ blocksOf rest

/-- The rebuild phase of `sortImportRequire`: `newNodes`, with the final
trailing newline dropped unless the second-to-last node is a comment. -/
def rebuildIR (kw : Node) (sorted : List ImportRequire)
    (lineComments : List Node) : List Node :=
  let newNodes := kw :: (blocksOf sorted ++ commentPairs lineComments)
  if 2 ≤ newNodes.length ∧
      isComment (newNodes.getD (newNodes.length - 2) .NewlineNode) = false
  then newNodes.dropLast else newNodes

/-- From `sortImportRequire`.  The empty-children case cannot arise (the
callers guard with `FnFormKeyword`, so the keyword is the first child). -/
def sortImportRequire (n : Node) : Node :=
  match n.children with
  | [] => n
  | kw :: rest =>
    match partitionIR rest with
    | (entries, lineComments, _) =>
      n.setChildren
        (rebuildIR kw (sortStable lessEntry entries) lineComments)

/-- From `sortNS`: apply `sortImportRequire` to each `:require`/`:import`
child of the `ns` form. -/
def sortNS (ns : Node) : Node :=
  match ns.children with
  | [] => ns
  | c0 :: rest =>
    ns.setChildren (c0 :: rest.map (fun nd =>
      if fnFormKeyword nd [":require", ":import"] then sortImportRequire nd
      else nd))

/-- Whether the trim loop of `removeTrailingNewlines` must stop because
the second-to-last node is a comment (on the reversed list: because the
second node is a comment). -/
def headIsComment : List Node → Bool
  | y :: _ => isComment y
  | [] => false

/-- The trailing trim loop of `removeTrailingNewlines`, expressed on the
reversed child list: keep everything as soon as a comment sits just
before the last node or the last node is not a newline; otherwise drop
the last node and repeat. -/
def trimRev : List Node → List Node
  | [] => []
  | x :: xs =>
    if headIsComment xs then x :: xs
    else if isNewline x = false then x :: xs
    else trimRev xs

/-- The trailing trim of `removeTrailingNewlines` on the children in
source order. -/
def trimTrailing (ns : List Node) : List Node := (trimRev ns.reverse).reverse

/-- The composite node types of the `switch` in
`removeTrailingNewlines`: list, map, vector, function literal, set. -/
def isSeqComposite : Node → Bool
  | .ListNode _ | .MapNode _ | .VectorNode _ | .FnLiteralNode _
  | .SetNode _ => true
  | _ => false

mutual

/-- Structural size of a node, used as fuel for the recursive transforms
(the automatically generated `sizeOf` of the nested inductive has no
executable code). -/
def nodeSize : Node → Nat
  | .ListNode cs => nodeSizeList cs + 1
  | .VectorNode cs => nodeSizeList cs + 1
  | .MapNode cs => nodeSizeList cs + 1
  | .SetNode cs => nodeSizeList cs + 1
  | .FnLiteralNode cs => nodeSizeList cs + 1
  | _ => 1

/-- Structural size of a node list. -/
def nodeSizeList : List Node → Nat
  | [] => 0
  | c :: cs => nodeSize c + nodeSizeList cs + 1

end

/-- Fueled body of `removeTrailingNewlines`: on a node with children,
trim the trailing newlines if the node is composite, then recurse into
the (trimmed) children.  The fuel only serves termination; it is
instantiated with `nodeSize`, which the recursion never exhausts (see
`removeTrailingNewlines_eq`). -/
def removeTrailingNewlinesF : Nat → Node → Node
  | 0, n => n
  | f + 1, n =>
    match n.children with
    | [] => n
    | _ :: _ =>
      let nodes := if isSeqComposite n then trimTrailing n.children
        else n.children
      n.setChildren (nodes.map (removeTrailingNewlinesF f))

/-- From `removeTrailingNewlines`. -/
def removeTrailingNewlines (n : Node) : Node :=
  removeTrailingNewlinesF (nodeSize n) n

/-- The collapse loop of `removeExtraBlankLines` with its running count
of consecutive newline nodes: a node is kept while the count stays at
most two. -/
def collapseAux (newlines : Nat) : List Node → List Node
  | [] => []
  | node :: rest =>
    let newlines := if isNewline node then newlines + 1 else 0
    if newlines ≤ 2 then node :: collapseAux newlines rest
    else collapseAux newlines rest

/-- From `removeExtraBlankLines` (the slice function). -/
def removeExtraBlankLines (nodes : List Node) : List Node :=
  collapseAux 0 nodes

/-- Fueled body of `removeExtraBlankLinesRecursive`, fuel as in
`removeTrailingNewlinesF`: collapse this node's children when there are
more than two, then recurse into the (collapsed) children. -/
def removeExtraBlankLinesRecursiveF : Nat → Node → Node
  | 0, n => n
  | f + 1, n =>
    match n.children with
    | [] => n
    | _ :: _ =>
      let nodes := if 2 < n.children.length then
          removeExtraBlankLines n.children
        else n.children
      n.setChildren (nodes.map (removeExtraBlankLinesRecursiveF f))

/-- From `removeExtraBlankLinesRecursive`. -/
def removeExtraBlankLinesRecursive (n : Node) : Node :=
  removeExtraBlankLinesRecursiveF (nodeSize n) n

/-- From `fixDefnArglist`: swap the newline at index 2 with the vector at
index 3 when the shape matches; otherwise leave the node untouched. -/
def fixDefnArglist (defn : Node) : Node :=
  let nodes := defn.children
  if nodes.length < 5 then defn
  else if isNewline (nodes.getD 2 .NewlineNode) = false ∨
      isNewline (nodes.getD 4 .NewlineNode) = true then defn
  else if isVector (nodes.getD 3 .NewlineNode) = false then defn
  else
    defn.setChildren
      ((nodes.set 2 (nodes.getD 3 .NewlineNode)).set 3
        (nodes.getD 2 .NewlineNode))

/-- From `fixDefmethodDispatchVal`: move the dispatch value up to the
header line; if a newline already follows it, delete the newline at index
2, otherwise swap indices 2 and 3. -/
def fixDefmethodDispatchVal (defmethod : Node) : Node :=
  let nodes := defmethod.children
  if nodes.length < 5 then defmethod
  else if isNewline (nodes.getD 2 .NewlineNode) = false then defmethod
  else if isKeyword (nodes.getD 3 .NewlineNode) = false then defmethod
  else if isNewline (nodes.getD 4 .NewlineNode) then
    defmethod.setChildren (nodes.take 2 ++ nodes.drop 3)
  else
    defmethod.setChildren
      ((nodes.set 2 (nodes.getD 3 .NewlineNode)).set 3
        (nodes.getD 2 .NewlineNode))

/-- The transform identifiers, from the `Transform` constants. -/
inductive Transform where
  | transformSortImportRequire
  | transformRemoveTrailingNewlines
  | transformFixDefnArglistNewline
  | transformFixDefmethodDispatchValNewline
  | transformRemoveExtraBlankLines
  deriving DecidableEq, Repr

/-- A parse tree: the root collection of top-level forms, from
`parse.Tree` as `applyTransforms` uses it. -/
structure Tree where
  roots : List Node

/-- The per-root body of the loop in `applyTransforms`; the guards test
the current (already partially transformed) root, as the Go loop does on
the mutated node. -/
def applyToRoot (transforms : Transform → Bool) (root : Node) : Node :=
  let r1 := if transforms .transformSortImportRequire ∧
      fnFormSymbol root "ns" then sortNS root else root
  let r2 := if transforms .transformRemoveTrailingNewlines then
      removeTrailingNewlines r1 else r1
  let r3 := if transforms .transformFixDefnArglistNewline ∧
      fnFormSymbol r2 "defn" then fixDefnArglist r2 else r2
  let r4 := if transforms .transformFixDefmethodDispatchValNewline ∧
      fnFormSymbol r3 "defmethod" then fixDefmethodDispatchVal r3 else r3
  if transforms .transformRemoveExtraBlankLines then
    removeExtraBlankLinesRecursive r4
  else r4

/-- From `applyTransforms`: apply the enabled passes to every root, then
collapse blank lines across the top-level forms. -/
def applyTransforms (t : Tree) (transforms : Transform → Bool) : Tree :=
  let roots := t.roots.map (applyToRoot transforms)
  if transforms .transformRemoveExtraBlankLines then
    { roots := removeExtraBlankLines roots }
  else { roots := roots }

/-- A single enabled transform pass, as the claims quantify over passes:
`applyTransforms` with exactly one transform enabled. -/
def runSingle (tr : Transform) (t : Tree) : Tree :=
  applyTransforms t (fun x => x = tr)

mutual

/-- The tree with all whitespace and comment nodes erased, recursively:
the sequence of semantic nodes of the spec's invariant. -/
def stripWs : Node → Node
  | .ListNode cs => .ListNode (stripWsList cs)
  | .VectorNode cs => .VectorNode (stripWsList cs)
  | .MapNode cs => .MapNode (stripWsList cs)
  | .SetNode cs => .SetNode (stripWsList cs)
  | .FnLiteralNode cs => .FnLiteralNode (stripWsList cs)
  | n => n

/-- List form of `stripWs`: keep and strip the semantic children. -/
def stripWsList : List Node → List Node
  | [] => []
  | c :: cs => (if isSemantic c then [stripWs c] else []) ++ stripWsList cs

end

mutual

/-- The comment texts of a tree, in order, recursively. -/
def commentsOf : Node → List String
  | .ListNode cs => commentsOfList cs
  | .VectorNode cs => commentsOfList cs
  | .MapNode cs => commentsOfList cs
  | .SetNode cs => commentsOfList cs
  | .FnLiteralNode cs => commentsOfList cs
  | .CommentNode tx => [tx]
  | _ => []

/-- List form of `commentsOf`. -/
def commentsOfList : List Node → List String
  | [] => []
  | c :: cs => commentsOf c ++ commentsOfList cs

end

/-- One step of the scan that detects the comment-dropping situation in
the partition loop of `sortImportRequire`: state is (no overwrite so
far, after a semantic node, that node's trailing-comment slot already
filled).  A comment arriving while the slot is filled is exactly the
case in which the loop overwrites `CommentBeside` and drops the earlier
comment. -/
def besideScanStep (st : Bool × Bool × Bool) (node : Node) :
    Bool × Bool × Bool :=
  match st with
  | (ok, afterSem, full) =>
    if isComment node then
      if afterSem then
        if full then (false, afterSem, full) else (ok, afterSem, true)
      else (ok, afterSem, full)
    else if isNewline node then (ok, false, false)
    else (ok, true, false)

/-- Whether no entry in a require/import child list is followed by two
comment nodes before an intervening newline (so the partition loop never
overwrites a trailing comment). -/
def noBesideOverwrite (nodes : List Node) : Bool :=
  (nodes.foldl besideScanStep (true, false, false)).1

/-- The comment texts attached to one partitioned entry, in source
order: the leading comments, the comments inside the entry node, then
the trailing comment. -/
def entryComments (ir : ImportRequire) : List String :=
  commentsOfList ir.commentsAbove ++ commentsOf ir.node ++
    (match ir.commentBeside with
     | some c => commentsOf c
     | none => [])

/-- The trailing-comment slot of the last entry. -/
def commentBesideLast : List ImportRequire → Option Node
  | [] => none
  | [ir] => ir.commentBeside
  | _ :: xs => commentBesideLast xs

end GoFormat

namespace Parse

/-- Helper: the fueled `scanUntil` loop, given enough fuel, on an input
whose first newline separates `s1` from `s2`, consumes `s1` and the
newline (newline included) and leaves `start` untouched. -/
theorem scanUntilF_newline (s1 : List Char) :
    ∀ (n : Nat) (l : Lexer) (s2 : List Char), '\n' ∉ s1 →
    l.input = s1 ++ '\n' :: s2 → l.input.length ≤ n →
    ∃ p lr, scanUntilF ['\n'] n l =
      { input := s2, pos := p, start := l.start, lastRead := lr,
        val := l.val ++ (s1 ++ ['\n']) } := by
  induction s1 with
  | nil =>
    intro n l s2 _ hi hn
    obtain ⟨inp, pos, start, lastRead, val⟩ := l
    simp only at hi hn
    subst hi
    match n with
    | 0 => simp at hn
    | m + 1 =>
      refine ⟨advancePos pos '\n', some ('\n', pos), ?_⟩
      simp [scanUntilF, readRune]
  | cons r s1 ih =>
    intro n l s2 hmem hi hn
    obtain ⟨inp, pos, start, lastRead, val⟩ := l
    simp only at hi hn
    subst hi
    have hr : ¬ r = '\n' := fun hc => hmem (hc ▸ List.mem_cons_self r s1)
    match n with
    | 0 => simp at hn
    | m + 1 =>
      have hrec := ih m (readRune ⟨r :: (s1 ++ '\n' :: s2), pos, start,
          lastRead, val⟩ r (s1 ++ '\n' :: s2)) s2
        (fun hc => hmem (List.mem_cons_of_mem r hc)) rfl
        (by
          simp only [readRune]
          simp only [List.cons_append, List.length_cons,
            List.length_append] at hn ⊢
          omega)
      obtain ⟨p, lr, hrec⟩ := hrec
      refine ⟨p, lr, ?_⟩
      simp only [readRune] at hrec
      simp only [List.cons_append]
      simp only [scanUntilF, List.mem_singleton, hr, if_false, readRune]
      rw [hrec]
      simp

/-- Helper: `scanUntil_newline` at the canonical fuel. -/
theorem scanUntil_newline (s1 : List Char) (l : Lexer) (s2 : List Char)
    (hmem : '\n' ∉ s1) (hi : l.input = s1 ++ '\n' :: s2) :
    ∃ p lr, scanUntil ['\n'] l =
      { input := s2, pos := p, start := l.start, lastRead := lr,
        val := l.val ++ (s1 ++ ['\n']) } :=
  scanUntilF_newline s1 l.input.length l s2 hmem hi le_rfl

/-- Step lemma: in the outer state a semicolon sends the scanner to the
comment state. -/
theorem runState_outer_semicolon (fuel : Nat) (l : Lexer) (rest : List Char)
    (hi : l.input = ';' :: rest) :
    runState (fuel + 1) l .lexOuter
      = runState fuel (readRune l ';' rest) .lexComment := by
  obtain ⟨inp, pos, start, lastRead, val⟩ := l
  simp only at hi
  subst hi
  simp [runState, next]

/-- Step lemma: the comment state scans up to and including the next
newline, emits one comment token and returns to the outer state. -/
theorem runState_comment (fuel : Nat) (l : Lexer) :
    runState (fuel + 1) l .lexComment =
      (emit (scanUntil ['\n'] l) .tokComment).1 ::
        runState fuel (emit (scanUntil ['\n'] l) .tokComment).2 .lexOuter := by
  simp [runState]

/-- Claim C1 (the code-bug evaluation): on the input consisting of a
single `#`, the lexer emits one octothorpe token and halts without any
terminal token — the stream contains neither an end-of-input nor an error
token, contradicting the termination contract: `lexDispatch` returns nil
after `emit(tokOctothorpe)` at end of input instead of calling `l.eof()`
as the analogous sign-at-end-of-input branch of `lexOuter` does. -/
theorem claim_C1_hash_input_has_no_terminal_token :
    lexTokens ['#'] =
      [{ typ := .tokOctothorpe, pos := ⟨0, 1, 1⟩, val := ['#'] }] ∧
    ∀ t ∈ lexTokens ['#'], t.typ ≠ .tokEOF ∧ t.typ ≠ .tokError := by
  decide

/-- Claim C2 counterexample: lexing `#bar` yields no octothorpe token at
all — the stream is the symbol `bar` then end-of-input, the `#` having
been silently discarded — and the symbol token following the dispatch
token of `#_foo` is `_foo` (the pushed-back underscore is re-scanned into
the symbol), not `foo`. -/
theorem claim_C2_counterexample :
    lexTokens ['#', 'b', 'a', 'r'] =
      [{ typ := .tokSymbol, pos := ⟨1, 1, 2⟩, val := ['b', 'a', 'r'] },
       { typ := .tokEOF, pos := ⟨4, 1, 5⟩, val := [] }] ∧
    (∀ t ∈ lexTokens ['#', 'b', 'a', 'r'], t.typ ≠ .tokOctothorpe) ∧
    lexTokens ['#', '_', 'f', 'o', 'o'] =
      [{ typ := .tokDispatch, pos := ⟨1, 1, 2⟩, val := ['#', '_'] },
       { typ := .tokSymbol, pos := ⟨1, 1, 2⟩, val := ['_', 'f', 'o', 'o'] },
       { typ := .tokEOF, pos := ⟨5, 1, 6⟩, val := [] }] := by
  decide

/-- Claim C2 (amended): `#_foo` lexes to the dispatch token `#_` followed
by the symbol token `_foo` and end-of-input; `# foo` lexes to the symbol
token `foo` and end-of-input; `#bar` lexes to the symbol token `bar` and
end-of-input — when the rune after `#` is not one of the dispatch runes,
the lexer emits no token for the `#` (discarding it) and tokenizes the
following input normally. -/
theorem claim_C2_amended :
    lexTokens ['#', '_', 'f', 'o', 'o'] =
      [{ typ := .tokDispatch, pos := ⟨1, 1, 2⟩, val := ['#', '_'] },
       { typ := .tokSymbol, pos := ⟨1, 1, 2⟩, val := ['_', 'f', 'o', 'o'] },
       { typ := .tokEOF, pos := ⟨5, 1, 6⟩, val := [] }] ∧
    lexTokens ['#', ' ', 'f', 'o', 'o'] =
      [{ typ := .tokSymbol, pos := ⟨2, 1, 3⟩, val := ['f', 'o', 'o'] },
       { typ := .tokEOF, pos := ⟨5, 1, 6⟩, val := [] }] ∧
    lexTokens ['#', 'b', 'a', 'r'] =
      [{ typ := .tokSymbol, pos := ⟨1, 1, 2⟩, val := ['b', 'a', 'r'] },
       { typ := .tokEOF, pos := ⟨4, 1, 5⟩, val := [] }] := by
  decide

/-- Claim C3 (the code-bug evaluation): the two-character dispatch token
`#{` is recorded at the position of its second character (offset 1,
column 2), not at the start of the consumed run (offset 0, column 1):
`lexDispatch` calls `skip` — which moves `start` — before `synth`. -/
theorem claim_C3_dispatch_token_position :
    lexTokens ['#', '{'] =
      [{ typ := .tokDispatch, pos := ⟨1, 1, 2⟩, val := ['#', '{'] },
       { typ := .tokLeftBrace, pos := ⟨1, 1, 2⟩, val := ['{'] },
       { typ := .tokEOF, pos := ⟨2, 1, 3⟩, val := [] }] ∧
    lexTokens ['#', '{'] ≠
      [{ typ := .tokDispatch, pos := ⟨0, 1, 1⟩, val := ['#', '{'] },
       { typ := .tokLeftBrace, pos := ⟨1, 1, 2⟩, val := ['{'] },
       { typ := .tokEOF, pos := ⟨2, 1, 3⟩, val := [] }] := by
  decide

/-- Claim C4 counterexample: the comment token of `;a\nb` has text
`;a\n` — it includes the terminating newline, which the comment scan
consumed (`scanUntil` consumes the discovered rune; the next token starts
on line 2), refuting that the newline is excluded and left unconsumed. -/
theorem claim_C4_counterexample :
    lexTokens [';', 'a', '\n', 'b'] =
      [{ typ := .tokComment, pos := ⟨0, 1, 1⟩, val := [';', 'a', '\n'] },
       { typ := .tokSymbol, pos := ⟨3, 2, 1⟩, val := ['b'] },
       { typ := .tokEOF, pos := ⟨4, 2, 2⟩, val := [] }] ∧
    ([';', 'a', '\n'] : List Char) ≠ [';', 'a'] := by
  decide

/-- Claim C4 (amended): on reading `;` the lexer consumes runes through
end-of-line inclusive of the newline and emits one comment token whose
text is the `;`, the rest of the line, and the terminating newline; the
rest of the input is tokenized after the consumed newline. -/
theorem claim_C4_amended (s1 s2 : List Char) (h : '\n' ∉ s1) :
    ∃ rest, lexTokens (';' :: (s1 ++ '\n' :: s2)) =
      { typ := .tokComment, pos := ⟨0, 1, 1⟩,
        val := ';' :: (s1 ++ ['\n']) } :: rest := by
  unfold lexTokens
  have h4 : 2 * (';' :: (s1 ++ '\n' :: s2)).length + 4
      = ((2 * (';' :: (s1 ++ '\n' :: s2)).length + 2) + 1) + 1 := by omega
  rw [h4, runState_outer_semicolon _ _ (s1 ++ '\n' :: s2) rfl, runState_comment]
  obtain ⟨p, lr, hscan⟩ := scanUntil_newline s1
    (readRune (lexInit (';' :: (s1 ++ '\n' :: s2))) ';' (s1 ++ '\n' :: s2))
    s2 h rfl
  rw [hscan]
  simp only [emit, readRune, lexInit, List.nil_append, List.cons_append]
  exact ⟨_, rfl⟩

/-- Witness for the amended claim C4 at a concrete input. -/
theorem claim_C4_amended_witness :
    ('\n' ∉ ['a']) ∧
    ∃ rest, lexTokens (';' :: (['a'] ++ '\n' :: ['b'])) =
      { typ := Parse.TokType.tokComment, pos := ⟨0, 1, 1⟩,
        val := ';' :: (['a'] ++ ['\n']) } :: rest :=
  ⟨by decide, claim_C4_amended ['a'] ['b'] (by simp)⟩

/-- Claim C5 counterexample: the string token of `"a\"b"` has as its text
the entire literal including both enclosing quotes (`emit` uses every
consumed rune), not just the content between the quotes. -/
theorem claim_C5_counterexample :
    lexTokens ['"', 'a', '\\', '"', 'b', '"'] =
      [{ typ := .tokString, pos := ⟨0, 1, 1⟩,
         val := ['"', 'a', '\\', '"', 'b', '"'] },
       { typ := .tokEOF, pos := ⟨6, 1, 7⟩, val := [] }] ∧
    (['"', 'a', '\\', '"', 'b', '"'] : List Char) ≠ ['a', '\\', '"', 'b'] := by
  decide

/-- Claim C5 (amended): `"a\"b"` lexes to exactly one string token, whose
text is the whole literal with the enclosing quotes and the preserved
escaped quote (the escape does not terminate the string early), followed
by end-of-input; `"unterminated` lexes to a single error token whose
message is "reached EOF before string closing quote". -/
theorem claim_C5_amended :
    lexTokens ['"', 'a', '\\', '"', 'b', '"'] =
      [{ typ := .tokString, pos := ⟨0, 1, 1⟩,
         val := ['"', 'a', '\\', '"', 'b', '"'] },
       { typ := .tokEOF, pos := ⟨6, 1, 7⟩, val := [] }] ∧
    lexTokens ('"' :: "unterminated".toList) =
      [{ typ := .tokError, pos := ⟨0, 1, 1⟩,
         val := "reached EOF before string closing quote".toList }] := by
  decide

end Parse

namespace GoFormat

/-- Every node has positive structural size. -/
theorem nodeSize_pos (n : Node) : 1 ≤ nodeSize n := by
  cases n <;> simp [nodeSize]

/-- A member of a node list weighs no more than the list. -/
theorem nodeSize_le_of_mem : ∀ {cs : List Node} {c : Node}, c ∈ cs →
    nodeSize c ≤ nodeSizeList cs := by
  intro cs
  induction cs with
  | nil => intro c h; cases h
  | cons x xs ih =>
    intro c h
    rcases List.mem_cons.mp h with h | h
    · subst h; simp [nodeSizeList]; omega
    · have := ih h; simp [nodeSizeList]; omega

/-- A child weighs strictly less than its parent. -/
theorem nodeSize_lt_of_mem_children {n c : Node} (h : c ∈ n.children) :
    nodeSize c < nodeSize n := by
  cases n <;>
    simp only [Node.children] at h <;>
    first
    | exact absurd h (List.not_mem_nil c)
    | · have := nodeSize_le_of_mem h
        simp only [nodeSize]
        omega

/-- `trimRev` returns a suffix, so membership carries over. -/
theorem mem_of_mem_trimRev : ∀ {xs : List Node} {c : Node},
    c ∈ trimRev xs → c ∈ xs := by
  intro xs
  induction xs with
  | nil => intro c h; simp [trimRev] at h
  | cons x xs ih =>
    intro c h
    rw [trimRev] at h
    split at h
    · exact h
    · split at h
      · exact h
      · exact List.mem_cons_of_mem x (ih h)

/-- Membership carries over from the trimmed children to the original. -/
theorem mem_of_mem_trimTrailing {ns : List Node} {c : Node}
    (h : c ∈ trimTrailing ns) : c ∈ ns := by
  unfold trimTrailing at h
  exact List.mem_reverse.mp (mem_of_mem_trimRev (List.mem_reverse.mp h))

/-- The fueled `removeTrailingNewlines` body does not depend on the fuel
once the fuel covers the node's size. -/
theorem removeTrailingNewlinesF_fuel : ∀ (f : Nat) (n : Node) (g : Nat),
    nodeSize n ≤ f → nodeSize n ≤ g →
    removeTrailingNewlinesF f n = removeTrailingNewlinesF g n := by
  intro f
  induction f with
  | zero => intro n g hf _; have := nodeSize_pos n; omega
  | succ f ih =>
    intro n g hf hg
    cases g with
    | zero => exact absurd hg (by have := nodeSize_pos n; omega)
    | succ g =>
      simp only [removeTrailingNewlinesF]
      cases hc : n.children with
      | nil => rfl
      | cons c cs =>
        show Node.setChildren n _ = Node.setChildren n _
        congr 1
        refine List.map_congr_left ?_
        intro d hd
        have hlt : nodeSize d < nodeSize n := by
          split at hd
          · exact nodeSize_lt_of_mem_children
              (hc ▸ mem_of_mem_trimTrailing hd)
          · exact nodeSize_lt_of_mem_children (hc ▸ hd)
        exact ih d g (by omega) (by omega)

/-- Clean unfolding equation for `removeTrailingNewlines`: trim the
trailing newlines of a composite node's children, then recurse. -/
theorem removeTrailingNewlines_eq (n : Node) :
    removeTrailingNewlines n =
      match n.children with
      | [] => n
      | _ :: _ =>
        n.setChildren ((if isSeqComposite n then trimTrailing n.children
          else n.children).map removeTrailingNewlines) := by
  unfold removeTrailingNewlines
  have h1 : nodeSize n = (nodeSize n - 1) + 1 := by
    have := nodeSize_pos n
    omega
  rw [h1]
  simp only [removeTrailingNewlinesF]
  cases hc : n.children with
  | nil => rfl
  | cons c cs =>
    show Node.setChildren n _ = Node.setChildren n _
    congr 1
    refine List.map_congr_left ?_
    intro d hd
    have hlt : nodeSize d < nodeSize n := by
      split at hd
      · exact nodeSize_lt_of_mem_children
          (hc ▸ mem_of_mem_trimTrailing hd)
      · exact nodeSize_lt_of_mem_children (hc ▸ hd)
    exact removeTrailingNewlinesF_fuel (nodeSize n - 1) d (nodeSize d)
      (by omega) le_rfl

/-- Membership carries over from `collapseAux` output to its input. -/
theorem mem_of_mem_collapseAux : ∀ {k : Nat} {xs : List Node} {c : Node},
    c ∈ collapseAux k xs → c ∈ xs := by
  intro k xs
  induction xs generalizing k with
  | nil => intro c h; simp [collapseAux] at h
  | cons x xs ih =>
    intro c h
    rw [collapseAux] at h
    split at h <;> split at h <;>
      first
      | (rcases List.mem_cons.mp h with h1 | h1
         · exact h1 ▸ List.mem_cons_self x xs
         · exact List.mem_cons_of_mem x (ih h1))
      | exact List.mem_cons_of_mem x (ih h)

/-- The fueled `removeExtraBlankLinesRecursive` body does not depend on
the fuel once the fuel covers the node's size. -/
theorem removeExtraBlankLinesRecursiveF_fuel : ∀ (f : Nat) (n : Node) (g : Nat),
    nodeSize n ≤ f → nodeSize n ≤ g →
    removeExtraBlankLinesRecursiveF f n = removeExtraBlankLinesRecursiveF g n := by
  intro f
  induction f with
  | zero => intro n g hf _; have := nodeSize_pos n; omega
  | succ f ih =>
    intro n g hf hg
    cases g with
    | zero => exact absurd hg (by have := nodeSize_pos n; omega)
    | succ g =>
      simp only [removeExtraBlankLinesRecursiveF]
      cases hc : n.children with
      | nil => rfl
      | cons c cs =>
        show Node.setChildren n _ = Node.setChildren n _
        congr 1
        refine List.map_congr_left ?_
        intro d hd
        have hlt : nodeSize d < nodeSize n := by
          split at hd
          · exact nodeSize_lt_of_mem_children
              (hc ▸ mem_of_mem_collapseAux hd)
          · exact nodeSize_lt_of_mem_children (hc ▸ hd)
        exact ih d g (by omega) (by omega)

/-- Clean unfolding equation for `removeExtraBlankLinesRecursive`:
collapse runs of newlines among this node's children when there are more
than two children, then recurse. -/
theorem removeExtraBlankLinesRecursive_eq (n : Node) :
    removeExtraBlankLinesRecursive n =
      match n.children with
      | [] => n
      | _ :: _ =>
        n.setChildren ((if 2 < n.children.length then
          removeExtraBlankLines n.children else n.children).map
            removeExtraBlankLinesRecursive) := by
  unfold removeExtraBlankLinesRecursive
  have h1 : nodeSize n = (nodeSize n - 1) + 1 := by
    have := nodeSize_pos n
    omega
  rw [h1]
  simp only [removeExtraBlankLinesRecursiveF]
  cases hc : n.children with
  | nil => rfl
  | cons c cs =>
    show Node.setChildren n _ = Node.setChildren n _
    congr 1
    refine List.map_congr_left ?_
    intro d hd
    have hlt : nodeSize d < nodeSize n := by
      split at hd
      · exact nodeSize_lt_of_mem_children
          (hc ▸ mem_of_mem_collapseAux hd)
      · exact nodeSize_lt_of_mem_children (hc ▸ hd)
    exact removeExtraBlankLinesRecursiveF_fuel (nodeSize n - 1) d (nodeSize d)
      (by omega) le_rfl

/-- A node with a child is one of the five composite variants. -/
theorem composite_of_children_ne_nil {n : Node} (h : n.children ≠ []) :
    isSeqComposite n = true := by
  cases n <;> simp [Node.children, isSeqComposite] at h ⊢

/-- Replacing children then reading them back. -/
theorem children_setChildren {n : Node} (h : isSeqComposite n = true)
    (X : List Node) : (n.setChildren X).children = X := by
  cases n <;> simp_all [isSeqComposite, Node.setChildren, Node.children]

/-- `setChildren` preserves the composite discriminator. -/
theorem isSeqComposite_setChildren (n : Node) (X : List Node) :
    isSeqComposite (n.setChildren X) = isSeqComposite n := by
  cases n <;> simp [Node.setChildren, isSeqComposite]

/-- `setChildren` preserves `isNewline`. -/
theorem isNewline_setChildren (n : Node) (X : List Node) :
    isNewline (n.setChildren X) = isNewline n := by
  cases n <;> simp [Node.setChildren, isNewline]

/-- `setChildren` preserves `isComment`. -/
theorem isComment_setChildren (n : Node) (X : List Node) :
    isComment (n.setChildren X) = isComment n := by
  cases n <;> simp [Node.setChildren, isComment]

/-- `setChildren` preserves `isSemantic`. -/
theorem isSemantic_setChildren (n : Node) (X : List Node) :
    isSemantic (n.setChildren X) = isSemantic n := by
  simp [isSemantic, isNewline_setChildren, isComment_setChildren]

/-- `stripWs` maps `setChildren` through on a composite node. -/
theorem stripWs_setChildren {n : Node} (h : isSeqComposite n = true)
    (X : List Node) :
    stripWs (n.setChildren X) = n.setChildren (stripWsList X) := by
  cases n <;> simp_all [isSeqComposite, Node.setChildren, stripWs]

/-- `stripWs` of a composite node strips its children. -/
theorem stripWs_composite {n : Node} (h : isSeqComposite n = true) :
    stripWs n = n.setChildren (stripWsList n.children) := by
  cases n <;> simp_all [isSeqComposite, Node.setChildren, stripWs, Node.children]

/-- `stripWsList` distributes over append. -/
theorem stripWsList_append : ∀ (a b : List Node),
    stripWsList (a ++ b) = stripWsList a ++ stripWsList b := by
  intro a b
  induction a with
  | nil => simp [stripWsList]
  | cons c cs ih => simp [stripWsList, ih]

/-- Any predicate respected by `setChildren` is preserved by
`removeTrailingNewlines`. -/
theorem rTN_preserves (P : Node → Bool)
    (hP : ∀ (n : Node) (X : List Node), P (n.setChildren X) = P n)
    (c : Node) : P (removeTrailingNewlines c) = P c := by
  rw [removeTrailingNewlines_eq]
  cases hc : c.children with
  | nil => rfl
  | cons d ds => exact hP c _

/-- Any predicate respected by `setChildren` is preserved by
`removeExtraBlankLinesRecursive`. -/
theorem rEBLR_preserves (P : Node → Bool)
    (hP : ∀ (n : Node) (X : List Node), P (n.setChildren X) = P n)
    (c : Node) : P (removeExtraBlankLinesRecursive c) = P c := by
  rw [removeExtraBlankLinesRecursive_eq]
  cases hc : c.children with
  | nil => rfl
  | cons d ds => exact hP c _

/-- Decomposition of `trimRev`: what it removes is a run of newlines. -/
theorem trimRev_decomp : ∀ (xs : List Node),
    ∃ d, xs = d ++ trimRev xs ∧ ∀ c ∈ d, isNewline c = true := by
  intro xs
  induction xs with
  | nil => exact ⟨[], by simp [trimRev], by simp⟩
  | cons x xs ih =>
    rw [trimRev]
    split
    · exact ⟨[], by simp, by simp⟩
    · split
      · exact ⟨[], by simp, by simp⟩
      · next hnl =>
        obtain ⟨d, hd, hall⟩ := ih
        refine ⟨x :: d, ?_, ?_⟩
        · rw [List.cons_append, ← hd]
        · intro c hc
          rcases List.mem_cons.mp hc with rfl | hc
          · simpa using hnl
          · exact hall c hc

/-- Decomposition of `trimTrailing`: the children are the trimmed
children followed by a run of newlines. -/
theorem trimTrailing_decomp (ns : List Node) :
    ∃ d, ns = trimTrailing ns ++ d ∧ ∀ c ∈ d, isNewline c = true := by
  obtain ⟨d, hd, hall⟩ := trimRev_decomp ns.reverse
  refine ⟨d.reverse, ?_, ?_⟩
  · have h2 := congrArg List.reverse hd
    simpa [trimTrailing] using h2
  · intro c hc
    exact hall c (List.mem_reverse.mp hc)

/-- A newline node is not semantic. -/
theorem not_semantic_of_newline {c : Node} (h : isNewline c = true) :
    isSemantic c = false := by
  simp [isSemantic, h]

/-- A comment node is not semantic. -/
theorem not_semantic_of_comment {c : Node} (h : isComment c = true) :
    isSemantic c = false := by
  simp [isSemantic, h]

/-- Stripping a pure run of newlines gives nothing. -/
theorem stripWsList_all_newline : ∀ {d : List Node},
    (∀ c ∈ d, isNewline c = true) → stripWsList d = [] := by
  intro d
  induction d with
  | nil => intro _; rfl
  | cons c cs ih =>
    intro h
    rw [stripWsList, not_semantic_of_newline (h c (List.mem_cons_self c cs))]
    simpa using ih (fun x hx => h x (List.mem_cons_of_mem c hx))

/-- Trimming trailing newlines does not change the semantic children. -/
theorem stripWsList_trimTrailing (ns : List Node) :
    stripWsList (trimTrailing ns) = stripWsList ns := by
  obtain ⟨d, hd, hall⟩ := trimTrailing_decomp ns
  conv_rhs => rw [hd]
  rw [stripWsList_append, stripWsList_all_newline hall, List.append_nil]

/-- The blank-line collapse drops only newline nodes. -/
theorem stripWsList_collapseAux : ∀ (xs : List Node) (k : Nat),
    stripWsList (collapseAux k xs) = stripWsList xs := by
  intro xs
  induction xs with
  | nil => intro k; rfl
  | cons x xs ih =>
    intro k
    rw [collapseAux]
    by_cases hnl : isNewline x
    · simp only [hnl, if_true]
      split
      · rw [stripWsList, stripWsList, ih]
      · rw [ih, stripWsList, not_semantic_of_newline hnl]
        simp
    · simp only [hnl]
      simp only [Bool.false_eq_true, if_false]
      rw [if_pos (by omega), stripWsList, stripWsList, ih]

/-- Mapping a semantics-preserving function over children preserves the
stripped children. -/
theorem stripWsList_map (f : Node → Node) : ∀ (xs : List Node),
    (∀ c ∈ xs, isSemantic (f c) = isSemantic c) →
    (∀ c ∈ xs, stripWs (f c) = stripWs c) →
    stripWsList (xs.map f) = stripWsList xs := by
  intro xs
  induction xs with
  | nil => intro _ _; rfl
  | cons c cs ih =>
    intro hsem hstrip
    rw [List.map_cons, stripWsList, stripWsList,
      hsem c (List.mem_cons_self c cs), hstrip c (List.mem_cons_self c cs),
      ih (fun x hx => hsem x (List.mem_cons_of_mem c hx))
        (fun x hx => hstrip x (List.mem_cons_of_mem c hx))]

/-- `removeTrailingNewlines` preserves the semantic tree (auxiliary
strong induction on size). -/
theorem stripWs_rTN_aux : ∀ (k : Nat) (n : Node), nodeSize n ≤ k →
    stripWs (removeTrailingNewlines n) = stripWs n := by
  intro k
  induction k with
  | zero => intro n h; exact absurd h (by have := nodeSize_pos n; omega)
  | succ k ih =>
    intro n hk
    rw [removeTrailingNewlines_eq]
    cases hc : n.children with
    | nil => rfl
    | cons c cs =>
      have hcomp : isSeqComposite n = true :=
        composite_of_children_ne_nil (by rw [hc]; simp)
      show stripWs (n.setChildren _) = stripWs n
      rw [stripWs_setChildren hcomp, stripWs_composite hcomp]
      congr 1
      simp only [hcomp, if_true]
      rw [hc]
      rw [stripWsList_map removeTrailingNewlines _
        (fun d _ => rTN_preserves isSemantic isSemantic_setChildren d)
        (fun d hd => ih d (by
          have hmemn : d ∈ n.children := by
            rw [hc]
            exact mem_of_mem_trimTrailing hd
          have := nodeSize_lt_of_mem_children hmemn
          omega))]
      exact stripWsList_trimTrailing (c :: cs)

/-- `removeExtraBlankLinesRecursive` preserves the semantic tree
(auxiliary strong induction on size). -/
theorem stripWs_rEBLR_aux : ∀ (k : Nat) (n : Node), nodeSize n ≤ k →
    stripWs (removeExtraBlankLinesRecursive n) = stripWs n := by
  intro k
  induction k with
  | zero => intro n h; exact absurd h (by have := nodeSize_pos n; omega)
  | succ k ih =>
    intro n hk
    rw [removeExtraBlankLinesRecursive_eq]
    cases hc : n.children with
    | nil => rfl
    | cons c cs =>
      have hcomp : isSeqComposite n = true :=
        composite_of_children_ne_nil (by rw [hc]; simp)
      show stripWs (n.setChildren _) = stripWs n
      rw [stripWs_setChildren hcomp, stripWs_composite hcomp]
      congr 1
      have hmap : ∀ (xs : List Node), (∀ d ∈ xs, d ∈ n.children) →
          stripWsList (xs.map removeExtraBlankLinesRecursive) =
            stripWsList xs := by
        intro xs hsub
        refine stripWsList_map removeExtraBlankLinesRecursive xs
          (fun d _ => rEBLR_preserves isSemantic isSemantic_setChildren d)
          (fun d hd => ih d ?_)
        have := nodeSize_lt_of_mem_children (hsub d hd)
        omega
      rw [hc]
      split
      · rw [hmap _ (fun d hd => by
          rw [hc]
          exact mem_of_mem_collapseAux hd)]
        exact stripWsList_collapseAux (c :: cs) 0
      · exact hmap _ (fun d hd => by rw [hc]; exact hd)
/-- A list of length at least five starts with five explicit elements. -/
theorem exists_five_head {xs : List Node} (h : 5 ≤ xs.length) :
    ∃ a b c d e rest, xs = a :: b :: c :: d :: e :: rest := by
  match xs with
  | [] => exact absurd h (by simp)
  | [a] => exact absurd h (by simp)
  | [a, b] => exact absurd h (by simp)
  | [a, b, c] => exact absurd h (by simp)
  | [a, b, c, d] => exact absurd h (by simp)
  | a :: b :: c :: d :: e :: rest => exact ⟨a, b, c, d, e, rest, rfl⟩

/-- `fixDefnArglist` preserves the semantic tree: it swaps a newline with
the argument vector. -/
theorem stripWs_fixDefnArglist (n : Node) :
    stripWs (fixDefnArglist n) = stripWs n := by
  unfold fixDefnArglist
  dsimp only
  split
  · rfl
  split
  · rfl
  split
  · rfl
  next h5 hg hv =>
  obtain ⟨a, b, c, d, e, rest, hl⟩ :=
    @exists_five_head n.children (by omega)
  rw [hl] at hg ⊢
  simp only [List.getD, List.getElem?_cons_succ, List.getElem?_cons_zero,
    List.get?_cons_succ, List.get?_cons_zero, Option.getD_some] at hg
  push_neg at hg
  obtain ⟨hc2, _⟩ := hg
  have hc2n : isNewline c = true := by
    revert hc2
    cases isNewline c <;> simp
  have hcomp : isSeqComposite n = true :=
    composite_of_children_ne_nil (by rw [hl]; simp)
  simp only [List.getD, List.getElem?_cons_succ, List.getElem?_cons_zero,
    List.get?_cons_succ, List.get?_cons_zero, Option.getD_some, List.set]
  rw [stripWs_setChildren hcomp, stripWs_composite hcomp, hl]
  simp [stripWsList, not_semantic_of_newline hc2n]

/-- `fixDefmethodDispatchVal` preserves the semantic tree: it moves or
deletes only a newline node. -/
theorem stripWs_fixDefmethodDispatchVal (n : Node) :
    stripWs (fixDefmethodDispatchVal n) = stripWs n := by
  unfold fixDefmethodDispatchVal
  dsimp only
  split
  · rfl
  split
  · rfl
  split
  · rfl
  next h5 hg hk =>
  obtain ⟨a, b, c, d, e, rest, hl⟩ :=
    @exists_five_head n.children (by omega)
  rw [hl] at hg ⊢
  simp only [List.getD, List.getElem?_cons_succ, List.getElem?_cons_zero,
    List.get?_cons_succ, List.get?_cons_zero, Option.getD_some] at hg
  have hc2n : isNewline c = true := by
    revert hg
    cases isNewline c <;> simp
  have hcomp : isSeqComposite n = true :=
    composite_of_children_ne_nil (by rw [hl]; simp)
  split
  · rw [stripWs_setChildren hcomp, stripWs_composite hcomp, hl]
    simp [stripWsList, not_semantic_of_newline hc2n]
  · simp only [List.getD, List.getElem?_cons_succ, List.getElem?_cons_zero,
      List.get?_cons_succ, List.get?_cons_zero, Option.getD_some, List.set]
    rw [stripWs_setChildren hcomp, stripWs_composite hcomp, hl]
    simp [stripWsList, not_semantic_of_newline hc2n]

/-- `setBesideLast` does not change the underlying entry nodes. -/
theorem map_node_setBesideLast : ∀ (l : List ImportRequire) (c : Node),
    (setBesideLast l c).map (fun ir => ir.node) = l.map (fun ir => ir.node) := by
  intro l
  induction l with
  | nil => intro c; rfl
  | cons x xs ih =>
    intro c
    cases xs with
    | nil => rfl
    | cons y ys => simp [setBesideLast, ih]

/-- The partition loop collects exactly the semantic nodes, in order, as
the entry nodes. -/
theorem partition_nodes : ∀ (tail : List Node)
    (sorted : List ImportRequire) (lcs : List Node) (b : Bool),
    ((tail.foldl partStep (sorted, lcs, b)).1).map (fun ir => ir.node) =
      sorted.map (fun ir => ir.node) ++
        tail.filter (fun c => isSemantic c) := by
  intro tail
  induction tail with
  | nil => intro sorted lcs b; simp
  | cons x xs ih =>
    intro sorted lcs b
    rw [List.foldl_cons, partStep]
    by_cases hcx : isComment x = true
    · rw [if_pos hcx]
      have hsem : isSemantic x = false := not_semantic_of_comment hcx
      by_cases hb : b
      · rw [if_pos hb, ih]
        simp [map_node_setBesideLast, List.filter_cons, hsem]
      · rw [if_neg hb, ih]
        simp [List.filter_cons, hsem]
    · rw [if_neg hcx]
      by_cases hnx : isNewline x = true
      · rw [if_pos hnx, ih]
        simp [List.filter_cons, not_semantic_of_newline hnx]
      · rw [if_neg hnx, ih]
        have hsem : isSemantic x = true := by
          simp only [isSemantic]
          simp only [Bool.not_eq_true] at hcx hnx
          rw [hcx, hnx]
          rfl
        simp [List.filter_cons, hsem]

/-- Wellformedness of an entry produced by the partition loop: the
comments above and beside are comment nodes, and the entry node is
semantic. -/
def WfIR (ir : ImportRequire) : Prop :=
  (∀ c ∈ ir.commentsAbove, isComment c = true) ∧
  (∀ c, ir.commentBeside = some c → isComment c = true) ∧
  isSemantic ir.node = true

/-- `setBesideLast` preserves wellformedness when the new comment is a
comment node. -/
theorem wf_setBesideLast : ∀ {l : List ImportRequire} {c : Node},
    (∀ ir ∈ l, WfIR ir) → isComment c = true →
    ∀ ir ∈ setBesideLast l c, WfIR ir := by
  intro l
  induction l with
  | nil => intro c _ _ ir h; cases h
  | cons x xs ih =>
    intro c hwf hc ir hmem
    cases xs with
    | nil =>
      simp only [setBesideLast, List.mem_singleton] at hmem
      subst hmem
      obtain ⟨h1, _, h3⟩ := hwf x (List.mem_cons_self x [])
      exact ⟨h1, fun d hd => by
        simp only [Option.some.injEq] at hd
        exact hd ▸ hc, h3⟩
    | cons y ys =>
      simp only [setBesideLast] at hmem
      rcases List.mem_cons.mp hmem with rfl | hmem
      · exact hwf ir (List.mem_cons_self ir (y :: ys))
      · exact ih (fun d hd => hwf d (List.mem_cons_of_mem x hd)) hc ir hmem

/-- The partition loop produces wellformed entries and collects only
comment nodes as pending line comments. -/
theorem partition_wf : ∀ (tail : List Node)
    (sorted : List ImportRequire) (lcs : List Node) (b : Bool),
    (∀ ir ∈ sorted, WfIR ir) → (∀ c ∈ lcs, isComment c = true) →
    (∀ ir ∈ (tail.foldl partStep (sorted, lcs, b)).1, WfIR ir) ∧
    (∀ c ∈ (tail.foldl partStep (sorted, lcs, b)).2.1, isComment c = true) := by
  intro tail
  induction tail with
  | nil => intro sorted lcs b h1 h2; exact ⟨h1, h2⟩
  | cons x xs ih =>
    intro sorted lcs b h1 h2
    rw [List.foldl_cons, partStep]
    by_cases hcx : isComment x = true
    · rw [if_pos hcx]
      by_cases hb : b
      · rw [if_pos hb]
        exact ih _ _ _ (wf_setBesideLast h1 hcx) h2
      · rw [if_neg hb]
        refine ih _ _ _ h1 ?_
        intro c hc
        rcases List.mem_append.mp hc with hc | hc
        · exact h2 c hc
        · simp only [List.mem_singleton] at hc
          exact hc ▸ hcx
    · rw [if_neg hcx]
      by_cases hnx : isNewline x = true
      · rw [if_pos hnx]
        exact ih _ _ _ h1 h2
      · rw [if_neg hnx]
        refine ih _ _ _ ?_ (fun c hc => by cases hc)
        intro ir hir
        rcases List.mem_append.mp hir with hir | hir
        · exact h1 ir hir
        · simp only [List.mem_singleton] at hir
          subst hir
          refine ⟨h2, (fun d hd => by simp at hd), ?_⟩
          simp only [isSemantic]
          simp only [Bool.not_eq_true] at hcx hnx
          rw [hcx, hnx]
          rfl

/-- A newline node is never semantic (computation rule). -/
@[simp] theorem isSemantic_NewlineNode : isSemantic Node.NewlineNode = false := rfl

/-- Stripping re-emitted comment pairs yields nothing. -/
theorem stripWsList_commentPairs : ∀ {cs : List Node},
    (∀ c ∈ cs, isComment c = true) → stripWsList (commentPairs cs) = [] := by
  intro cs
  induction cs with
  | nil => intro _; rfl
  | cons c cs ih =>
    intro h
    rw [commentPairs, stripWsList, stripWsList,
      not_semantic_of_comment (h c (List.mem_cons_self c cs)),
      ih (fun x hx => h x (List.mem_cons_of_mem c hx))]
    rfl

/-- Stripping one entry block yields exactly the stripped entry node. -/
theorem stripWsList_blockOf {ir : ImportRequire} (h : WfIR ir) :
    stripWsList (blockOf ir) = [stripWs ir.node] := by
  obtain ⟨h1, h2, h3⟩ := h
  rw [blockOf, stripWsList_append, stripWsList_append, stripWsList_append,
    stripWsList_commentPairs h1]
  cases hb : ir.commentBeside with
  | none => simp [stripWsList, h3, isSemantic_NewlineNode]
  | some c =>
    simp [stripWsList, h3, not_semantic_of_comment (h2 c hb),
      isSemantic_NewlineNode]

/-- Stripping the concatenated blocks yields the stripped entry nodes. -/
theorem stripWsList_blocksOf : ∀ {s : List ImportRequire},
    (∀ ir ∈ s, WfIR ir) →
    stripWsList (blocksOf s) = s.map (fun ir => stripWs ir.node) := by
  intro s
  induction s with
  | nil => intro _; rfl
  | cons ir rest ih =>
    intro h
    rw [blocksOf, stripWsList_append,
      stripWsList_blockOf (h ir (List.mem_cons_self ir rest)),
      ih (fun x hx => h x (List.mem_cons_of_mem ir hx)), List.map_cons]
    rfl

/-- An entry block is never empty. -/
theorem blockOf_ne_nil (ir : ImportRequire) : blockOf ir ≠ [] := by
  intro h
  simp [blockOf] at h

/-- An entry block ends with the appended newline. -/
theorem getLast?_blockOf (ir : ImportRequire) :
    (blockOf ir).getLast? = some Node.NewlineNode := by
  rw [blockOf, List.append_assoc, List.append_assoc,
    List.getLast?_append_of_ne_nil _ (by simp),
    List.getLast?_append_of_ne_nil _ (by simp),
    List.getLast?_append_of_ne_nil _ (by simp)]
  rfl

/-- Nonempty comment pairs end with the appended newline. -/
theorem getLast?_commentPairs : ∀ {tc : List Node}, tc ≠ [] →
    (commentPairs tc).getLast? = some Node.NewlineNode := by
  intro tc
  induction tc with
  | nil => intro h; exact absurd rfl h
  | cons c cs ih =>
    intro _
    cases cs with
    | nil => rfl
    | cons d ds =>
      rw [commentPairs, commentPairs, List.getLast?_cons_cons,
        List.getLast?_cons_cons]
      show (commentPairs (d :: ds)).getLast? = some Node.NewlineNode
      exact ih (by simp)

/-- Nonempty block lists end with a newline. -/
theorem getLast?_blocksOf : ∀ {s : List ImportRequire}, s ≠ [] →
    (blocksOf s).getLast? = some Node.NewlineNode := by
  intro s
  induction s with
  | nil => intro h; exact absurd rfl h
  | cons ir rest ih =>
    intro _
    cases rest with
    | nil =>
      show (blockOf ir ++ blocksOf []).getLast? = some Node.NewlineNode
      rw [blocksOf, List.append_nil]
      exact getLast?_blockOf ir
    | cons ir2 rest2 =>
      have hne : blocksOf (ir2 :: rest2) ≠ [] := by
        rw [blocksOf]
        intro hx
        exact blockOf_ne_nil ir2 (List.append_eq_nil.mp hx).1
      rw [blocksOf, List.getLast?_append_of_ne_nil _ hne]
      exact ih (by simp)

/-- Dropping a trailing newline does not change the semantic children. -/
theorem stripWsList_dropLast_newline {xs : List Node}
    (h : xs.getLast? = some Node.NewlineNode) :
    stripWsList xs.dropLast = stripWsList xs := by
  have hx := List.dropLast_append_getLast? Node.NewlineNode
    (Option.mem_def.mpr h)
  conv_rhs => rw [← hx]
  rw [stripWsList_append]
  simp [stripWsList, isSemantic_NewlineNode]

/-- Stripping the rebuilt children: the head node then the stripped
entry nodes, in entry order. -/
theorem stripWsList_rebuildIR (kw : Node) (s : List ImportRequire)
    (tc : List Node) (hwf : ∀ ir ∈ s, WfIR ir)
    (htc : ∀ c ∈ tc, isComment c = true) :
    stripWsList (rebuildIR kw s tc) =
      stripWsList [kw] ++ s.map (fun ir => stripWs ir.node) := by
  have hbody : stripWsList (kw :: (blocksOf s ++ commentPairs tc)) =
      stripWsList [kw] ++ s.map (fun ir => stripWs ir.node) := by
    rw [stripWsList, stripWsList_append, stripWsList_blocksOf hwf,
      stripWsList_commentPairs htc, List.append_nil, stripWsList]
    simp [stripWsList]
  rw [rebuildIR]
  split
  · next hcond =>
    obtain ⟨h2, _⟩ := hcond
    have hne : blocksOf s ++ commentPairs tc ≠ [] := by
      intro he
      rw [he] at h2
      simp at h2
    have hlast : (kw :: (blocksOf s ++ commentPairs tc)).getLast? =
        some Node.NewlineNode := by
      cases hb : blocksOf s ++ commentPairs tc with
      | nil => exact absurd hb hne
      | cons z zs =>
        rw [List.getLast?_cons_cons, ← hb]
        cases htcn : tc with
        | nil =>
          rw [htcn] at hb
          have hs : s ≠ [] := by
            intro hs
            rw [hs] at hb
            simp [blocksOf, commentPairs] at hb
          rw [commentPairs, List.append_nil]
          exact getLast?_blocksOf hs
        | cons c cs =>
          have hne2 : commentPairs (c :: cs) ≠ [] := by
            rw [commentPairs]
            simp
          rw [List.getLast?_append_of_ne_nil _ hne2]
          exact getLast?_commentPairs (by simp)
    rw [stripWsList_dropLast_newline hlast]
    exact hbody
  · exact hbody

/-- One Go insertion permutes: inserting into the reversed prefix is a
permutation of consing. -/
theorem insertRight_perm (less : ImportRequire → ImportRequire → Bool)
    (x : ImportRequire) : ∀ (acc : List ImportRequire),
    (insertRight less x acc).Perm (x :: acc) := by
  intro acc
  induction acc with
  | nil => exact List.Perm.refl _
  | cons y ys ih =>
    rw [insertRight]
    split
    · exact (ih.cons y).trans (List.Perm.swap x y ys)
    · exact List.Perm.refl _

/-- The insertion fold permutes its input. -/
theorem foldl_insertRight_perm (less : ImportRequire → ImportRequire → Bool) :
    ∀ (l acc : List ImportRequire),
    (l.foldl (fun acc x => insertRight less x acc) acc).Perm (l ++ acc) := by
  intro l
  induction l with
  | nil => intro acc; exact List.Perm.refl _
  | cons x xs ih =>
    intro acc
    rw [List.foldl_cons]
    refine (ih (insertRight less x acc)).trans ?_
    refine (List.Perm.append_left xs (insertRight_perm less x acc)).trans ?_
    simp only [List.cons_append]
    exact List.perm_middle

/-- The modelled `sort.Stable` is a permutation. -/
theorem sortStable_perm (less : ImportRequire → ImportRequire → Bool)
    (l : List ImportRequire) : (sortStable less l).Perm l := by
  rw [sortStable]
  refine (List.reverse_perm _).trans ?_
  have := foldl_insertRight_perm less l []
  simpa using this

/-- `stripWsList` as a filter of the semantic children. -/
theorem stripWsList_eq_filter : ∀ (xs : List Node),
    stripWsList xs = (xs.filter (fun c => isSemantic c)).map stripWs := by
  intro xs
  induction xs with
  | nil => rfl
  | cons c cs ih =>
    rw [stripWsList, List.filter_cons, ih]
    by_cases hc : isSemantic c = true
    · simp [hc]
    · simp only [Bool.not_eq_true] at hc
      simp [hc]

/-- Dropping the last element of a list with at least two elements keeps
the head. -/
theorem head?_dropLast_of_two_le {xs : List Node} (h : 2 ≤ xs.length) :
    xs.dropLast.head? = xs.head? := by
  match xs with
  | [] => simp at h
  | [a] => simp at h
  | a :: b :: t => simp [List.dropLast_cons₂]

/-- The rebuilt children always start with the keyword node. -/
theorem head?_rebuildIR (kw : Node) (s : List ImportRequire)
    (tc : List Node) : (rebuildIR kw s tc).head? = some kw := by
  rw [rebuildIR]
  split
  · next hcond => rw [head?_dropLast_of_two_le hcond.1]; rfl
  · rfl

/-- Splitting the head off `stripWsList`. -/
theorem stripWsList_cons_split (c : Node) (cs : List Node) :
    stripWsList (c :: cs) = stripWsList [c] ++ stripWsList cs := by
  rw [stripWsList]
  conv_rhs => rw [stripWsList]
  rw [stripWsList]
  simp

/-- Claim C6: every pass preserves the semantic nodes and their relative
order.  For the four rewrite passes the whitespace-and-comment-stripped
tree is unchanged; the import/require sort permutes exactly the semantic
children of the sorted list (the entry group), keeps the leading keyword
in place, and carries every entry over unchanged (the permutation relates
the stripped entry nodes themselves). -/
theorem claim_C6_semantic_preservation :
    (∀ n : Node, stripWs (removeTrailingNewlines n) = stripWs n) ∧
    (∀ n : Node, stripWs (removeExtraBlankLinesRecursive n) = stripWs n) ∧
    (∀ ns : List Node,
      stripWsList (removeExtraBlankLines ns) = stripWsList ns) ∧
    (∀ n : Node, stripWs (fixDefnArglist n) = stripWs n) ∧
    (∀ n : Node, stripWs (fixDefmethodDispatchVal n) = stripWs n) ∧
    (∀ n : Node, (stripWsList (sortImportRequire n).children).Perm
        (stripWsList n.children) ∧
      (sortImportRequire n).children.head? = n.children.head?) := by
  refine ⟨fun n => stripWs_rTN_aux (nodeSize n) n le_rfl,
    fun n => stripWs_rEBLR_aux (nodeSize n) n le_rfl,
    fun ns => stripWsList_collapseAux ns 0,
    stripWs_fixDefnArglist, stripWs_fixDefmethodDispatchVal, ?_⟩
  intro n
  cases hc : n.children with
  | nil =>
    have hid : sortImportRequire n = n := by
      unfold sortImportRequire
      rw [hc]
    rw [hid, hc]
    exact ⟨List.Perm.refl _, rfl⟩
  | cons kw rest =>
    have hcomp : isSeqComposite n = true :=
      composite_of_children_ne_nil (by rw [hc]; simp)
    have hsort : sortImportRequire n = n.setChildren
        (rebuildIR kw (sortStable lessEntry (partitionIR rest).1)
          (partitionIR rest).2.1) := by
      unfold sortImportRequire
      rw [hc]
    have hwfp := partition_wf rest [] [] false
      (by intro ir h; cases h) (by intro c h; cases h)
    have hwf1 : ∀ ir ∈ (partitionIR rest).1, WfIR ir := hwfp.1
    have hwf2 : ∀ c ∈ (partitionIR rest).2.1, isComment c = true := hwfp.2
    have hwfs : ∀ ir ∈ sortStable lessEntry (partitionIR rest).1, WfIR ir := by
      intro ir hir
      exact hwf1 ir
        ((sortStable_perm lessEntry (partitionIR rest).1).mem_iff.mp hir)
    rw [hsort, children_setChildren hcomp]
    constructor
    · rw [stripWsList_rebuildIR kw _ _ hwfs hwf2]
      conv_rhs => rw [stripWsList_cons_split]
      refine List.Perm.append_left _ ?_
      have hperm := (sortStable_perm lessEntry (partitionIR rest).1).map
        (fun ir => stripWs ir.node)
      refine hperm.trans ?_
      have hnodes := partition_nodes rest [] [] false
      rw [stripWsList_eq_filter]
      have : (partitionIR rest).1.map (fun ir => ir.node) =
          rest.filter (fun c => isSemantic c) := by
        simpa [partitionIR] using hnodes
      rw [← this, List.map_map]
      exact List.Perm.refl _
    · rw [head?_rebuildIR]
      simp [hc]
/-- Characterization of `Less` when both nodes are lists or vectors. -/
theorem lessIR_lov {a b : Node} (ha : listOrVector a = true)
    (hb : listOrVector b = true) :
    lessIR a b =
      (match a.children with
       | [] => true
       | c1 :: _ =>
         match b.children with
         | [] => false
         | c2 :: _ =>
           match c1 with
           | .SymbolNode p1 =>
             (match c2 with
              | .SymbolNode p2 => decide (p1 < p2)
              | _ => true)
           | _ => false) := by
  cases a <;> cases b <;>
    first
    | rfl
    | exact Bool.noConfusion ha
    | exact Bool.noConfusion hb

/-- Characterization of `Less` when the first node is a symbol. -/
theorem lessIR_symbol_left (v : String) (b : Node) :
    lessIR (.SymbolNode v) b =
      (match b with
       | .SymbolNode w => decide (v < w)
       | _ => true) := by
  cases b <;> rfl

/-- `Less` is false whenever the first node is neither a symbol nor a
list or vector. -/
theorem lessIR_other_left {a : Node} (b : Node)
    (hs : ∀ v, a ≠ .SymbolNode v) (hl : listOrVector a = false) :
    lessIR a b = false := by
  cases a <;>
    first
    | exact absurd rfl (hs _)
    | exact Bool.noConfusion hl
    | rfl

/-- `Less` is false whenever the second node is a symbol and the first
is not. -/
theorem lessIR_symbol_right {a : Node} (v : String)
    (hs : ∀ w, a ≠ .SymbolNode w) : lessIR a (.SymbolNode v) = false := by
  cases a <;>
    first
    | exact absurd rfl (hs _)
    | rfl

/-- One Go insertion leaves the element in place when it compares below
nothing in the prefix. -/
theorem insertRight_no_less {less : ImportRequire → ImportRequire → Bool}
    {x : ImportRequire} {acc : List ImportRequire}
    (h : ∀ b ∈ acc, less x b = false) :
    insertRight less x acc = x :: acc := by
  cases acc with
  | nil => rfl
  | cons y ys =>
    rw [insertRight, h y (List.mem_cons_self y ys)]
    simp

/-- The insertion fold is the reversed identity on pairwise-tied
entries. -/
theorem foldl_insertRight_no_less
    {less : ImportRequire → ImportRequire → Bool} :
    ∀ {l acc : List ImportRequire},
    (∀ a ∈ l, ∀ b ∈ acc, less a b = false) →
    (∀ a ∈ l, ∀ b ∈ l, less a b = false) →
    l.foldl (fun acc x => insertRight less x acc) acc = l.reverse ++ acc := by
  intro l
  induction l with
  | nil => intro acc _ _; simp
  | cons x xs ih =>
    intro acc hacc hl
    rw [List.foldl_cons,
      insertRight_no_less (hacc x (List.mem_cons_self x xs))]
    rw [ih ?_ ?_]
    · simp
    · intro a ha b hb
      rcases List.mem_cons.mp hb with rfl | hb
      · exact hl a (List.mem_cons_of_mem _ ha) b (List.mem_cons_self b xs)
      · exact hacc a (List.mem_cons_of_mem _ ha) b hb
    · intro a ha b hb
      exact hl a (List.mem_cons_of_mem _ ha) b (List.mem_cons_of_mem _ hb)

/-- Claim C8 (amended): the comparison underlying the import/require sort
orders a bare symbol before everything else (two symbols by their literal
text), an empty vector or list before a non-empty one, non-empty
vector/list entries lexicographically by the text of their leading
symbols, and an entry with a non-symbol leading element after one whose
leading element is a symbol; the sort is the stable insertion sort, so
pairwise-incomparable entries keep their original order; the example
entries `[b.c] [a.b] c.d` sort to `c.d [a.b] [b.c]`.  Deviating from the
claim as frozen, two empty vector/list entries each compare strictly
before the other, so their mutual order is reversed by every pass rather
than kept. -/
theorem claim_C8_amended :
    (∀ v w : String,
      lessIR (.SymbolNode v) (.SymbolNode w) = decide (v < w)) ∧
    (∀ (v : String) (b : Node), (∀ w, b ≠ .SymbolNode w) →
      lessIR (.SymbolNode v) b = true ∧ lessIR b (.SymbolNode v) = false) ∧
    (∀ a b : Node, listOrVector a = true → listOrVector b = true →
      a.children = [] → b.children ≠ [] →
      lessIR a b = true ∧ lessIR b a = false) ∧
    (∀ (a b : Node) (p1 p2 : String) (ta tb : List Node),
      listOrVector a = true → listOrVector b = true →
      a.children = .SymbolNode p1 :: ta →
      b.children = .SymbolNode p2 :: tb →
      lessIR a b = decide (p1 < p2)) ∧
    (∀ (a b : Node) (p1 : String) (c : Node) (ta tb : List Node),
      listOrVector a = true → listOrVector b = true →
      a.children = .SymbolNode p1 :: ta → b.children = c :: tb →
      (∀ w, c ≠ .SymbolNode w) →
      lessIR a b = true ∧ lessIR b a = false) ∧
    (lessIR (.ListNode []) (.VectorNode []) = true ∧
      lessIR (.VectorNode []) (.ListNode []) = true) ∧
    (∀ entries : List ImportRequire,
      (∀ a ∈ entries, ∀ b ∈ entries, lessEntry a b = false) →
      sortStable lessEntry entries = entries) ∧
    (sortImportRequire (.ListNode [.KeywordNode ":require",
        .VectorNode [.SymbolNode "b.c"], .NewlineNode,
        .VectorNode [.SymbolNode "a.b"], .NewlineNode,
        .SymbolNode "c.d"]) =
      .ListNode [.KeywordNode ":require", .SymbolNode "c.d", .NewlineNode,
        .VectorNode [.SymbolNode "a.b"], .NewlineNode,
        .VectorNode [.SymbolNode "b.c"]]) := by
  refine ⟨fun v w => rfl, ?_, ?_, ?_, ?_, ⟨rfl, rfl⟩, ?_, ?_⟩
  · intro v b hb
    constructor
    · rw [lessIR_symbol_left]
      cases b <;> first | exact absurd rfl (hb _) | rfl
    · exact lessIR_symbol_right v hb
  · intro a b ha hb hae hbne
    constructor
    · rw [lessIR_lov ha hb, hae]
    · rw [lessIR_lov hb ha, hae]
      cases hc : b.children with
      | nil => exact absurd hc hbne
      | cons d ds => rfl
  · intro a b p1 p2 ta tb ha hb hca hcb
    rw [lessIR_lov ha hb, hca, hcb]
  · intro a b p1 c ta tb ha hb hca hcb hcns
    constructor
    · rw [lessIR_lov ha hb, hca, hcb]
      cases c <;> first | exact absurd rfl (hcns _) | rfl
    · rw [lessIR_lov hb ha, hcb, hca]
      cases c <;> first | exact absurd rfl (hcns _) | rfl
  · intro entries h
    rw [sortStable, foldl_insertRight_no_less (fun a _ b hb => by cases hb) h]
    simp
  · with_unfolding_all rfl

/-- Claim C8 counterexample: on the two tied-under-the-claimed-order
empty entries `()` and `[]`, each sorting pass reverses their mutual
order — in both input orders — which no stable sort by a total order
with ties broken by original position can do. -/
theorem claim_C8_counterexample :
    sortImportRequire (.ListNode [.KeywordNode ":require",
        .ListNode [], .NewlineNode, .VectorNode []]) =
      .ListNode [.KeywordNode ":require", .VectorNode [], .NewlineNode,
        .ListNode []] ∧
    sortImportRequire (.ListNode [.KeywordNode ":require",
        .VectorNode [], .NewlineNode, .ListNode []]) =
      .ListNode [.KeywordNode ":require", .ListNode [], .NewlineNode,
        .VectorNode []] := ⟨rfl, rfl⟩

/-- Witness for the amended claim C8 at concrete inputs: two entries
that are incomparable under `Less` (a number entry and a string entry)
keep their original order under the sort. -/
theorem claim_C8_amended_witness :
    (∀ a ∈ [ImportRequire.mk [] none (.NumberNode "3"),
        ImportRequire.mk [] none (.StringNode "s")],
      ∀ b ∈ [ImportRequire.mk [] none (.NumberNode "3"),
        ImportRequire.mk [] none (.StringNode "s")],
      lessEntry a b = false) ∧
    sortStable lessEntry
      [ImportRequire.mk [] none (.NumberNode "3"),
        ImportRequire.mk [] none (.StringNode "s")] =
      [ImportRequire.mk [] none (.NumberNode "3"),
        ImportRequire.mk [] none (.StringNode "s")] := by
  have hp : ∀ a ∈ [ImportRequire.mk [] none (.NumberNode "3"),
      ImportRequire.mk [] none (.StringNode "s")],
      ∀ b ∈ [ImportRequire.mk [] none (.NumberNode "3"),
        ImportRequire.mk [] none (.StringNode "s")],
      lessEntry a b = false := by
    intro a ha b hb
    rcases List.mem_cons.mp ha with rfl | ha
    · rcases List.mem_cons.mp hb with rfl | hb
      · rfl
      · rcases List.mem_singleton.mp hb with rfl
        rfl
    · rcases List.mem_singleton.mp ha with rfl
      rcases List.mem_cons.mp hb with rfl | hb
      · rfl
      · rcases List.mem_singleton.mp hb with rfl
        rfl
  exact ⟨hp, claim_C8_amended.2.2.2.2.2.2.1 _ hp⟩

/-- Claim C9 (amended): for children (defmethod, name, newline, keyword,
next, ...) the pass moves the dispatch keyword up to the header line; if
a newline already follows the keyword, the leading newline is deleted
(leaving one newline after the dispatch value) — not swapped, which
would leave two consecutive newlines; otherwise the newline and keyword
are swapped; any non-matching shape is left untouched. -/
theorem claim_C9_amended :
    (∀ (n n0 n1 kw r0 : Node) (rest : List Node),
      n.children = n0 :: n1 :: Node.NewlineNode :: kw :: r0 :: rest →
      isKeyword kw = true →
      fixDefmethodDispatchVal n = n.setChildren (n0 :: n1 :: kw ::
        (if isNewline r0 then r0 :: rest
         else Node.NewlineNode :: r0 :: rest))) ∧
    (∀ n : Node, (n.children.length < 5 ∨
        isNewline (n.children.getD 2 Node.NewlineNode) = false ∨
        isKeyword (n.children.getD 3 Node.NewlineNode) = false) →
      fixDefmethodDispatchVal n = n) := by
  constructor
  · intro n n0 n1 kw r0 rest hch hkw
    unfold fixDefmethodDispatchVal
    dsimp only
    rw [hch]
    rw [if_neg (by simp only [List.length_cons] ; omega)]
    rw [if_neg (by simp [List.getD, isNewline])]
    rw [if_neg (by simp [List.getD, hkw])]
    by_cases hnl : isNewline r0 = true
    · rw [if_pos (by simpa [List.getD] using hnl), if_pos hnl]
      rfl
    · rw [if_neg (by simpa [List.getD] using hnl), if_neg hnl]
      rfl
  · intro n hcase
    unfold fixDefmethodDispatchVal
    dsimp only
    split
    · rfl
    split
    · rfl
    split
    · rfl
    next h1 h2 h3 =>
    exfalso
    rcases hcase with h | h | h
    · exact h1 h
    · exact h2 h
    · exact h3 h

/-- Claim C9 counterexample: when a newline already follows the dispatch
value, the pass deletes the leading newline rather than simply swapping:
on `(defmethod foo \n :bar \n [])` the result has five children with a
single newline, not the six-children two-newline tree a swap would
produce. -/
theorem claim_C9_counterexample :
    fixDefmethodDispatchVal (.ListNode [.SymbolNode "defmethod",
        .SymbolNode "foo", .NewlineNode, .KeywordNode ":bar",
        .NewlineNode, .VectorNode []]) =
      .ListNode [.SymbolNode "defmethod", .SymbolNode "foo",
        .KeywordNode ":bar", .NewlineNode, .VectorNode []] ∧
    (Node.ListNode [.SymbolNode "defmethod", .SymbolNode "foo",
        .KeywordNode ":bar", .NewlineNode, .VectorNode []]) ≠
      .ListNode [.SymbolNode "defmethod", .SymbolNode "foo",
        .KeywordNode ":bar", .NewlineNode, .NewlineNode, .VectorNode []] := by
  refine ⟨rfl, ?_⟩
  intro h
  injection h with h2
  simp at h2

/-- Witness for the amended claim C9 at a concrete input (the deletion
branch). -/
theorem claim_C9_amended_witness :
    fixDefmethodDispatchVal (.ListNode [.SymbolNode "defmethod",
        .SymbolNode "foo", .NewlineNode, .KeywordNode ":bar",
        .NewlineNode, .VectorNode []]) =
      (Node.ListNode [.SymbolNode "defmethod", .SymbolNode "foo",
        .NewlineNode, .KeywordNode ":bar", .NewlineNode,
        .VectorNode []]).setChildren
        (.SymbolNode "defmethod" :: .SymbolNode "foo" ::
          .KeywordNode ":bar" ::
          (if isNewline Node.NewlineNode then
            Node.NewlineNode :: [Node.VectorNode []]
           else Node.NewlineNode :: Node.NewlineNode ::
             [Node.VectorNode []])) :=
  claim_C9_amended.1 _ _ _ _ _ _ rfl rfl
/-- `commentsOfList` distributes over append. -/
theorem commentsOfList_append : ∀ (a b : List Node),
    commentsOfList (a ++ b) = commentsOfList a ++ commentsOfList b := by
  intro a b
  induction a with
  | nil => simp [commentsOfList]
  | cons c cs ih => simp [commentsOfList, ih]

/-- `commentsOf` maps `setChildren` through on a composite node. -/
theorem commentsOf_setChildren {n : Node} (h : isSeqComposite n = true)
    (X : List Node) : commentsOf (n.setChildren X) = commentsOfList X := by
  cases n <;> simp_all [isSeqComposite, Node.setChildren, commentsOf]

/-- `commentsOf` of a composite node reads its children. -/
theorem commentsOf_composite {n : Node} (h : isSeqComposite n = true) :
    commentsOf n = commentsOfList n.children := by
  cases n <;> simp_all [isSeqComposite, commentsOf, Node.children]

/-- A newline node contains no comments. -/
theorem commentsOf_of_newline {c : Node} (h : isNewline c = true) :
    commentsOf c = [] := by
  cases c <;> simp_all [isNewline, commentsOf]

/-- A run of newlines contains no comments. -/
theorem commentsOfList_all_newline : ∀ {d : List Node},
    (∀ c ∈ d, isNewline c = true) → commentsOfList d = [] := by
  intro d
  induction d with
  | nil => intro _; rfl
  | cons c cs ih =>
    intro h
    rw [commentsOfList, commentsOf_of_newline (h c (List.mem_cons_self c cs)),
      ih (fun x hx => h x (List.mem_cons_of_mem c hx))]
    rfl

/-- Trimming trailing newlines keeps the comments. -/
theorem commentsOfList_trimTrailing (ns : List Node) :
    commentsOfList (trimTrailing ns) = commentsOfList ns := by
  obtain ⟨d, hd, hall⟩ := trimTrailing_decomp ns
  conv_rhs => rw [hd]
  rw [commentsOfList_append, commentsOfList_all_newline hall,
    List.append_nil]

/-- The blank-line collapse keeps the comments. -/
theorem commentsOfList_collapseAux : ∀ (xs : List Node) (k : Nat),
    commentsOfList (collapseAux k xs) = commentsOfList xs := by
  intro xs
  induction xs with
  | nil => intro k; rfl
  | cons x xs ih =>
    intro k
    rw [collapseAux]
    by_cases hnl : isNewline x
    · simp only [hnl, if_true]
      split
      · rw [commentsOfList, commentsOfList, ih]
      · rw [ih, commentsOfList, commentsOf_of_newline hnl]
        simp
    · simp only [hnl]
      simp only [Bool.false_eq_true, if_false]
      rw [if_pos (by omega), commentsOfList, commentsOfList, ih]

/-- Mapping a comment-preserving function over children keeps the
comments. -/
theorem commentsOfList_map (f : Node → Node) : ∀ (xs : List Node),
    (∀ c ∈ xs, commentsOf (f c) = commentsOf c) →
    commentsOfList (xs.map f) = commentsOfList xs := by
  intro xs
  induction xs with
  | nil => intro _; rfl
  | cons c cs ih =>
    intro hc
    rw [List.map_cons, commentsOfList, commentsOfList,
      hc c (List.mem_cons_self c cs),
      ih (fun x hx => hc x (List.mem_cons_of_mem c hx))]

/-- `removeTrailingNewlines` keeps every comment (strong induction on
size). -/
theorem commentsOf_rTN_aux : ∀ (k : Nat) (n : Node), nodeSize n ≤ k →
    commentsOf (removeTrailingNewlines n) = commentsOf n := by
  intro k
  induction k with
  | zero => intro n h; exact absurd h (by have := nodeSize_pos n; omega)
  | succ k ih =>
    intro n hk
    rw [removeTrailingNewlines_eq]
    cases hc : n.children with
    | nil => rfl
    | cons c cs =>
      have hcomp : isSeqComposite n = true :=
        composite_of_children_ne_nil (by rw [hc]; simp)
      show commentsOf (n.setChildren _) = commentsOf n
      rw [commentsOf_setChildren hcomp, commentsOf_composite hcomp]
      simp only [hcomp, if_true]
      rw [hc]
      rw [commentsOfList_map removeTrailingNewlines _
        (fun d hd => ih d (by
          have hmemn : d ∈ n.children := by
            rw [hc]
            exact mem_of_mem_trimTrailing hd
          have := nodeSize_lt_of_mem_children hmemn
          omega))]
      exact commentsOfList_trimTrailing (c :: cs)

/-- `removeExtraBlankLinesRecursive` keeps every comment (strong
induction on size). -/
theorem commentsOf_rEBLR_aux : ∀ (k : Nat) (n : Node), nodeSize n ≤ k →
    commentsOf (removeExtraBlankLinesRecursive n) = commentsOf n := by
  intro k
  induction k with
  | zero => intro n h; exact absurd h (by have := nodeSize_pos n; omega)
  | succ k ih =>
    intro n hk
    rw [removeExtraBlankLinesRecursive_eq]
    cases hc : n.children with
    | nil => rfl
    | cons c cs =>
      have hcomp : isSeqComposite n = true :=
        composite_of_children_ne_nil (by rw [hc]; simp)
      show commentsOf (n.setChildren _) = commentsOf n
      rw [commentsOf_setChildren hcomp, commentsOf_composite hcomp]
      have hmap : ∀ (xs : List Node), (∀ d ∈ xs, d ∈ n.children) →
          commentsOfList (xs.map removeExtraBlankLinesRecursive) =
            commentsOfList xs := by
        intro xs hsub
        refine commentsOfList_map removeExtraBlankLinesRecursive xs
          (fun d hd => ih d ?_)
        have := nodeSize_lt_of_mem_children (hsub d hd)
        omega
      rw [hc]
      split
      · rw [hmap _ (fun d hd => by
          rw [hc]
          exact mem_of_mem_collapseAux hd)]
        exact commentsOfList_collapseAux (c :: cs) 0
      · exact hmap _ (fun d hd => by rw [hc]; exact hd)

/-- `fixDefnArglist` keeps every comment. -/
theorem commentsOf_fixDefnArglist (n : Node) :
    commentsOf (fixDefnArglist n) = commentsOf n := by
  unfold fixDefnArglist
  dsimp only
  split
  · rfl
  split
  · rfl
  split
  · rfl
  next h5 hg hv =>
  obtain ⟨a, b, c, d, e, rest, hl⟩ :=
    @exists_five_head n.children (by omega)
  rw [hl] at hg ⊢
  simp only [List.getD, List.getElem?_cons_succ, List.getElem?_cons_zero,
    List.get?_cons_succ, List.get?_cons_zero, Option.getD_some] at hg
  push_neg at hg
  obtain ⟨hc2, _⟩ := hg
  have hc2n : isNewline c = true := by
    revert hc2
    cases isNewline c <;> simp
  have hcomp : isSeqComposite n = true :=
    composite_of_children_ne_nil (by rw [hl]; simp)
  simp only [List.getD, List.getElem?_cons_succ, List.getElem?_cons_zero,
    List.get?_cons_succ, List.get?_cons_zero, Option.getD_some, List.set]
  rw [commentsOf_setChildren hcomp, commentsOf_composite hcomp, hl]
  simp [commentsOfList, commentsOf_of_newline hc2n]

/-- `fixDefmethodDispatchVal` keeps every comment. -/
theorem commentsOf_fixDefmethodDispatchVal (n : Node) :
    commentsOf (fixDefmethodDispatchVal n) = commentsOf n := by
  unfold fixDefmethodDispatchVal
  dsimp only
  split
  · rfl
  split
  · rfl
  split
  · rfl
  next h5 hg hk =>
  obtain ⟨a, b, c, d, e, rest, hl⟩ :=
    @exists_five_head n.children (by omega)
  rw [hl] at hg ⊢
  simp only [List.getD, List.getElem?_cons_succ, List.getElem?_cons_zero,
    List.get?_cons_succ, List.get?_cons_zero, Option.getD_some] at hg
  have hc2n : isNewline c = true := by
    revert hg
    cases isNewline c <;> simp
  have hcomp : isSeqComposite n = true :=
    composite_of_children_ne_nil (by rw [hl]; simp)
  split
  · rw [commentsOf_setChildren hcomp, commentsOf_composite hcomp, hl]
    simp [commentsOfList, commentsOf_of_newline hc2n]
  · simp only [List.getD, List.getElem?_cons_succ, List.getElem?_cons_zero,
      List.get?_cons_succ, List.get?_cons_zero, Option.getD_some, List.set]
    rw [commentsOf_setChildren hcomp, commentsOf_composite hcomp, hl]
    simp [commentsOfList, commentsOf_of_newline hc2n]
/-- A permutation of lists of strings flattens to a permutation. -/
theorem perm_flatten {l1 l2 : List (List String)} (h : l1.Perm l2) :
    l1.flatten.Perm l2.flatten := by
  induction h with
  | nil => exact List.Perm.refl _
  | cons x _ ih => simpa using ih.append_left x
  | swap x y l =>
    simp only [List.flatten_cons]
    rw [← List.append_assoc, ← List.append_assoc]
    exact (List.perm_append_comm).append_right _
  | trans _ _ ih1 ih2 => exact ih1.trans ih2

/-- Comment pairs re-emit exactly their comments. -/
theorem commentsOfList_commentPairs : ∀ (cs : List Node),
    commentsOfList (commentPairs cs) = commentsOfList cs := by
  intro cs
  induction cs with
  | nil => rfl
  | cons c cs ih =>
    rw [commentPairs, commentsOfList, commentsOfList, ih, commentsOfList]
    simp [commentsOf]

/-- One rebuilt entry block carries exactly the entry's comments. -/
theorem commentsOfList_blockOf (ir : ImportRequire) :
    commentsOfList (blockOf ir) = entryComments ir := by
  rw [blockOf, commentsOfList_append, commentsOfList_append,
    commentsOfList_append, commentsOfList_commentPairs, entryComments]
  cases hb : ir.commentBeside with
  | none => simp [commentsOfList, commentsOf]
  | some c => simp [commentsOfList, commentsOf]

/-- The concatenated blocks carry exactly the entries' comments. -/
theorem commentsOfList_blocksOf : ∀ (s : List ImportRequire),
    commentsOfList (blocksOf s) = (s.map entryComments).flatten := by
  intro s
  induction s with
  | nil => rfl
  | cons ir rest ih =>
    rw [blocksOf, commentsOfList_append, commentsOfList_blockOf, ih,
      List.map_cons, List.flatten_cons]

/-- Dropping a trailing newline keeps the comments. -/
theorem commentsOfList_dropLast_newline {xs : List Node}
    (h : xs.getLast? = some Node.NewlineNode) :
    commentsOfList xs.dropLast = commentsOfList xs := by
  have hx := List.dropLast_append_getLast? Node.NewlineNode
    (Option.mem_def.mpr h)
  conv_rhs => rw [← hx]
  rw [commentsOfList_append]
  simp [commentsOfList, commentsOf]

/-- The non-keyword part of the rebuilt children always ends with a
newline when it is nonempty. -/
theorem getLast?_rebuild_body {s : List ImportRequire} {tc : List Node}
    (hne : blocksOf s ++ commentPairs tc ≠ []) :
    (blocksOf s ++ commentPairs tc).getLast? = some Node.NewlineNode := by
  cases htcn : tc with
  | nil =>
    rw [htcn] at hne
    have hs : s ≠ [] := by
      intro hs
      rw [hs] at hne
      simp [blocksOf, commentPairs] at hne
    rw [commentPairs, List.append_nil]
    exact getLast?_blocksOf hs
  | cons c cs =>
    have hne2 : commentPairs (c :: cs) ≠ [] := by
      rw [commentPairs]
      simp
    rw [List.getLast?_append_of_ne_nil _ hne2]
    exact getLast?_commentPairs (by simp)

/-- The comments of the rebuilt require/import children: the keyword
node's comments, the entries' comments in entry order, then the
unattached trailing comments. -/
theorem commentsOfList_rebuildIR (kw : Node) (s : List ImportRequire)
    (tc : List Node) :
    commentsOfList (rebuildIR kw s tc) =
      commentsOf kw ++ (s.map entryComments).flatten ++ commentsOfList tc := by
  have hbody : commentsOfList (kw :: (blocksOf s ++ commentPairs tc)) =
      commentsOf kw ++ (s.map entryComments).flatten ++ commentsOfList tc := by
    rw [commentsOfList, commentsOfList_append, commentsOfList_blocksOf,
      commentsOfList_commentPairs, List.append_assoc]
  rw [rebuildIR]
  split
  · next hcond =>
    obtain ⟨h2, _⟩ := hcond
    have hne : blocksOf s ++ commentPairs tc ≠ [] := by
      intro he
      rw [he] at h2
      simp at h2
    have hlast : (kw :: (blocksOf s ++ commentPairs tc)).getLast? =
        some Node.NewlineNode := by
      cases hb : blocksOf s ++ commentPairs tc with
      | nil => exact absurd hb hne
      | cons z zs =>
        rw [List.getLast?_cons_cons, ← hb]
        exact getLast?_rebuild_body hne
    rw [commentsOfList_dropLast_newline hlast]
    exact hbody
  · exact hbody

/-- `setBesideLast` on a list whose last slot is empty appends that
comment's text to the collected comments. -/
theorem setBesideLast_comments : ∀ {l : List ImportRequire} (c : Node),
    l ≠ [] → commentBesideLast l = none →
    ((setBesideLast l c).map entryComments).flatten =
      (l.map entryComments).flatten ++ commentsOf c := by
  intro l
  induction l with
  | nil => intro c h _; exact absurd rfl h
  | cons x xs ih =>
    intro c _ hbl
    cases xs with
    | nil =>
      simp only [setBesideLast, List.map_cons, List.map_nil,
        List.flatten_cons, List.flatten_nil]
      rw [entryComments, entryComments]
      simp only [commentBesideLast] at hbl
      rw [hbl]
      simp [List.append_assoc]
    | cons y ys =>
      simp only [setBesideLast, List.map_cons, List.flatten_cons]
      rw [ih c (by simp) (by simpa [commentBesideLast] using hbl)]
      simp [List.append_assoc]

/-- `setBesideLast` never empties a list. -/
theorem setBesideLast_ne_nil : ∀ {l : List ImportRequire} (c : Node),
    l ≠ [] → setBesideLast l c ≠ [] := by
  intro l c h
  cases l with
  | nil => exact absurd rfl h
  | cons x xs =>
    cases xs with
    | nil => simp [setBesideLast]
    | cons y ys => simp [setBesideLast]

/-- The last trailing-comment slot after appending one entry. -/
theorem commentBesideLast_append_single : ∀ (l : List ImportRequire)
    (ir : ImportRequire),
    commentBesideLast (l ++ [ir]) = ir.commentBeside := by
  intro l
  induction l with
  | nil => intro ir; rfl
  | cons x xs ih =>
    intro ir
    rw [List.cons_append]
    cases hxs : xs ++ [ir] with
    | nil => simp at hxs
    | cons z zs =>
      show commentBesideLast (z :: zs) = ir.commentBeside
      rw [← hxs]
      exact ih ir

/-- Once the overwrite scan has failed it stays failed. -/
theorem besideScan_false : ∀ (xs : List Node) (a f : Bool),
    (xs.foldl besideScanStep (false, a, f)).1 = false := by
  intro xs
  induction xs with
  | nil => intro a f; rfl
  | cons x xs ih =>
    intro a f
    rw [List.foldl_cons, besideScanStep]
    by_cases hcx : isComment x = true
    · rw [if_pos hcx]
      by_cases ha : a = true
      · rw [if_pos ha]
        by_cases hf : f = true
        · rw [if_pos hf]
          exact ih a f
        · rw [if_neg hf]
          exact ih a true
      · rw [if_neg ha]
        exact ih a f
    · rw [if_neg hcx]
      by_cases hnx : isNewline x = true
      · rw [if_pos hnx]
        exact ih false false
      · rw [if_neg hnx]
        exact ih true false
/-- The partition loop collects every comment exactly once and in source
order, provided no entry is followed by two comment nodes before an
intervening newline: the entries' comments in entry order, then the
pending line comments. -/
theorem partition_comments : ∀ (rest : List Node)
    (sorted : List ImportRequire) (lcs : List Node) (afterSem full : Bool),
    (rest.foldl besideScanStep (true, afterSem, full)).1 = true →
    (afterSem = true → sorted ≠ [] ∧ lcs = [] ∧
      (full = false → commentBesideLast sorted = none)) →
    (((rest.foldl partStep (sorted, lcs, afterSem)).1.map
        entryComments).flatten ++
      commentsOfList (rest.foldl partStep (sorted, lcs, afterSem)).2.1) =
      ((sorted.map entryComments).flatten ++ commentsOfList lcs ++
        commentsOfList rest) := by
  intro rest
  induction rest with
  | nil =>
    intro sorted lcs a f _ _
    simp [commentsOfList]
  | cons x xs ih =>
    intro sorted lcs afterSem full hscan hinv
    rw [List.foldl_cons] at hscan
    rw [List.foldl_cons]
    rw [besideScanStep] at hscan
    rw [partStep]
    by_cases hcx : isComment x = true
    · rw [if_pos hcx] at hscan
      rw [if_pos hcx]
      by_cases ha : afterSem = true
      · rw [if_pos ha] at hscan
        rw [if_pos ha]
        by_cases hf : full = true
        · exfalso
          rw [if_pos hf, besideScan_false] at hscan
          exact Bool.noConfusion hscan
        · obtain ⟨hsne, hlcs, hbl⟩ := hinv ha
          rw [if_neg hf] at hscan
          have hinv2 : afterSem = true →
              setBesideLast sorted x ≠ [] ∧ lcs = [] ∧
              (true = false → commentBesideLast (setBesideLast sorted x)
                = none) := by
            intro _
            exact ⟨setBesideLast_ne_nil x hsne, hlcs,
              fun h => Bool.noConfusion h⟩
          have hrec := ih (setBesideLast sorted x) lcs afterSem true
            hscan hinv2
          rw [hrec, setBesideLast_comments x hsne
            (hbl (by revert hf; cases full <;> simp)), hlcs]
          simp [commentsOfList, List.append_assoc]
      · rw [if_neg ha] at hscan
        rw [if_neg ha]
        have hrec := ih sorted (lcs ++ [x]) afterSem full hscan
          (fun h => absurd h ha)
        rw [hrec, commentsOfList_append]
        simp [commentsOfList, List.append_assoc]
    · rw [if_neg hcx] at hscan
      rw [if_neg hcx]
      by_cases hnx : isNewline x = true
      · rw [if_pos hnx] at hscan
        rw [if_pos hnx]
        have hrec := ih sorted lcs false false hscan
          (fun h => Bool.noConfusion h)
        rw [hrec, commentsOfList, commentsOf_of_newline hnx]
        simp [List.append_assoc]
      · rw [if_neg hnx] at hscan
        rw [if_neg hnx]
        have hinv2 : (true : Bool) = true →
            sorted ++ [(⟨lcs, none, x⟩ : ImportRequire)] ≠ [] ∧
            ([] : List Node) = [] ∧
            ((false : Bool) = false →
              commentBesideLast
                (sorted ++ [(⟨lcs, none, x⟩ : ImportRequire)]) = none) := by
          intro _
          refine ⟨by simp, rfl, fun _ => ?_⟩
          rw [commentBesideLast_append_single]
        have hrec := ih (sorted ++ [(⟨lcs, none, x⟩ : ImportRequire)])
          [] true false hscan hinv2
        rw [hrec, List.map_append, List.flatten_append]
        simp [commentsOfList, entryComments, List.append_assoc]
/-- Claim C10 (amended): comment preservation.  As stated the claim is
false: when two
comment nodes follow the same entry before any newline, the partition
loop overwrites the entry's single trailing-comment slot and the first
comment is dropped (see the counterexample).  Amended: every other pass
preserves the comment texts exactly, and the import/require sort
preserves the multiset of comment texts whenever no entry is followed by
two comments before an intervening newline. -/
theorem claim_C10_amended :
    (∀ n : Node, commentsOf (removeTrailingNewlines n) = commentsOf n) ∧
    (∀ n : Node, commentsOf (removeExtraBlankLinesRecursive n)
      = commentsOf n) ∧
    (∀ ns : List Node, commentsOfList (removeExtraBlankLines ns)
      = commentsOfList ns) ∧
    (∀ n : Node, commentsOf (fixDefnArglist n) = commentsOf n) ∧
    (∀ n : Node, commentsOf (fixDefmethodDispatchVal n) = commentsOf n) ∧
    (∀ (n kw : Node) (rest : List Node), n.children = kw :: rest →
      noBesideOverwrite rest = true →
      (commentsOfList (sortImportRequire n).children).Perm
        (commentsOfList n.children)) := by
  refine ⟨fun n => commentsOf_rTN_aux (nodeSize n) n le_rfl,
    fun n => commentsOf_rEBLR_aux (nodeSize n) n le_rfl,
    fun ns => commentsOfList_collapseAux ns 0,
    commentsOf_fixDefnArglist, commentsOf_fixDefmethodDispatchVal, ?_⟩
  intro n kw rest hch hnb
  unfold noBesideOverwrite at hnb
  have hcomp : isSeqComposite n = true :=
    composite_of_children_ne_nil (by rw [hch]; simp)
  have hsort : sortImportRequire n = n.setChildren
      (rebuildIR kw (sortStable lessEntry (partitionIR rest).1)
        (partitionIR rest).2.1) := by
    unfold sortImportRequire
    rw [hch]
  have hpc := partition_comments rest [] [] false false hnb
    (fun h => Bool.noConfusion h)
  have hpc2 : ((partitionIR rest).1.map entryComments).flatten ++
      commentsOfList (partitionIR rest).2.1 = commentsOfList rest := by
    show ((rest.foldl partStep ([], [], false)).1.map
        entryComments).flatten ++
      commentsOfList (rest.foldl partStep ([], [], false)).2.1 = _
    rw [hpc]
    simp [commentsOfList]
  rw [hsort, children_setChildren hcomp, commentsOfList_rebuildIR, hch]
  conv_rhs => rw [commentsOfList]
  rw [List.append_assoc]
  refine List.Perm.append_left _ ?_
  rw [← hpc2]
  exact (perm_flatten
    ((sortStable_perm lessEntry (partitionIR rest).1).map
      entryComments)).append_right _

/-- Claim C10 witness: a require list whose entry `a` carries one trailing
comment and is followed by a newline and entry `b` satisfies the
no-overwrite condition, and the sort preserves its comment texts. -/
theorem claim_C10_amended_witness :
    (commentsOfList (sortImportRequire (Node.ListNode
      [.KeywordNode ":require", .SymbolNode "a", .CommentNode "x",
       .NewlineNode, .SymbolNode "b"])).children).Perm
      (commentsOfList (Node.ListNode [.KeywordNode ":require",
       .SymbolNode "a", .CommentNode "x", .NewlineNode,
       .SymbolNode "b"]).children) :=
  claim_C10_amended.2.2.2.2.2
    (Node.ListNode [.KeywordNode ":require", .SymbolNode "a",
      .CommentNode "x", .NewlineNode, .SymbolNode "b"])
    (.KeywordNode ":require")
    [.SymbolNode "a", .CommentNode "x", .NewlineNode, .SymbolNode "b"]
    rfl rfl

/-- Claim C10 counterexample: on `(:require a ;x ;y)` — entry `a` followed by
two comments with no intervening newline — the sort keeps only the
second comment text `y` and drops `x`, so the comment multiset is not
preserved. -/
theorem claim_C10_counterexample :
    commentsOfList (sortImportRequire (Node.ListNode
      [.KeywordNode ":require", .SymbolNode "a", .CommentNode "x",
       .CommentNode "y"])).children = ["y"] ∧
    commentsOfList (Node.ListNode [.KeywordNode ":require",
      .SymbolNode "a", .CommentNode "x", .CommentNode "y"]).children
      = ["x", "y"] ∧
    ¬ (["y"] : List String).Perm ["x", "y"] :=
  ⟨by with_unfolding_all rfl, by with_unfolding_all rfl, by decide⟩

/-- Replacing the children twice keeps only the second replacement. -/
theorem setChildren_setChildren (n : Node) (X Y : List Node) :
    (n.setChildren X).setChildren Y = n.setChildren Y := by
  cases n <;> rfl

/-- The trailing trim loop is idempotent (reversed form). -/
theorem trimRev_idem : ∀ (xs : List Node),
    trimRev (trimRev xs) = trimRev xs := by
  intro xs
  induction xs with
  | nil => rfl
  | cons x xs ih =>
    rw [trimRev]
    by_cases h1 : headIsComment xs = true
    · rw [if_pos h1, trimRev, if_pos h1]
    · rw [if_neg h1]
      by_cases h2 : isNewline x = false
      · rw [if_pos h2, trimRev, if_neg h1, if_pos h2]
      · rw [if_neg h2]
        exact ih

/-- The trailing trim is idempotent. -/
theorem trimTrailing_idem (ns : List Node) :
    trimTrailing (trimTrailing ns) = trimTrailing ns := by
  unfold trimTrailing
  rw [List.reverse_reverse, trimRev_idem]

/-- Mapping a comment-kind-preserving function keeps the head test. -/
theorem headIsComment_map {f : Node → Node}
    (hcm : ∀ x, isComment (f x) = isComment x) (xs : List Node) :
    headIsComment (xs.map f) = headIsComment xs := by
  cases xs with
  | nil => rfl
  | cons x xs => simp [headIsComment, hcm]

/-- The reversed trim loop commutes with a kind-preserving map. -/
theorem trimRev_map {f : Node → Node}
    (hnl : ∀ x, isNewline (f x) = isNewline x)
    (hcm : ∀ x, isComment (f x) = isComment x) :
    ∀ (xs : List Node), trimRev (xs.map f) = (trimRev xs).map f := by
  intro xs
  induction xs with
  | nil => rfl
  | cons x xs ih =>
    rw [List.map_cons, trimRev, trimRev, headIsComment_map hcm, hnl x]
    by_cases h1 : headIsComment xs = true
    · rw [if_pos h1, if_pos h1, List.map_cons]
    · rw [if_neg h1, if_neg h1]
      by_cases h2 : isNewline x = false
      · rw [if_pos h2, if_pos h2, List.map_cons]
      · rw [if_neg h2, if_neg h2]
        exact ih

/-- The trailing trim commutes with a kind-preserving map. -/
theorem trimTrailing_map {f : Node → Node}
    (hnl : ∀ x, isNewline (f x) = isNewline x)
    (hcm : ∀ x, isComment (f x) = isComment x) (ns : List Node) :
    trimTrailing (ns.map f) = (trimTrailing ns).map f := by
  unfold trimTrailing
  rw [← List.map_reverse, trimRev_map hnl hcm, List.map_reverse]

/-- `removeTrailingNewlines` on a node without children. -/
theorem rTN_nil {m : Node} (hc : m.children = []) :
    removeTrailingNewlines m = m := by
  rw [removeTrailingNewlines_eq, hc]

/-- `removeTrailingNewlines` on a node with children: trim, then
recurse. -/
theorem rTN_cons {m z : Node} {zs : List Node} (hc : m.children = z :: zs) :
    removeTrailingNewlines m =
      m.setChildren ((trimTrailing (z :: zs)).map removeTrailingNewlines) := by
  have hcomp : isSeqComposite m = true :=
    composite_of_children_ne_nil (by rw [hc]; simp)
  rw [removeTrailingNewlines_eq, hc]
  show m.setChildren ((if isSeqComposite m then trimTrailing (z :: zs)
    else (z :: zs)).map removeTrailingNewlines) = _
  rw [if_pos hcomp]

/-- `removeTrailingNewlines` keeps the node kind: newline test. -/
theorem isNewline_rTN (n : Node) :
    isNewline (removeTrailingNewlines n) = isNewline n := by
  cases hc : n.children with
  | nil => rw [rTN_nil hc]
  | cons c cs => rw [rTN_cons hc]; exact isNewline_setChildren n _

/-- `removeTrailingNewlines` keeps the node kind: comment test. -/
theorem isComment_rTN (n : Node) :
    isComment (removeTrailingNewlines n) = isComment n := by
  cases hc : n.children with
  | nil => rw [rTN_nil hc]
  | cons c cs => rw [rTN_cons hc]; exact isComment_setChildren n _

/-- `removeExtraBlankLinesRecursive` on a node without children. -/
theorem rEBLR_nil {m : Node} (hc : m.children = []) :
    removeExtraBlankLinesRecursive m = m := by
  rw [removeExtraBlankLinesRecursive_eq, hc]

/-- `removeExtraBlankLinesRecursive` on a node with children. -/
theorem rEBLR_cons {m z : Node} {zs : List Node}
    (hc : m.children = z :: zs) :
    removeExtraBlankLinesRecursive m =
      m.setChildren ((if 2 < (z :: zs).length then
          removeExtraBlankLines (z :: zs) else (z :: zs)).map
        removeExtraBlankLinesRecursive) := by
  rw [removeExtraBlankLinesRecursive_eq, hc]

/-- `removeExtraBlankLinesRecursive` keeps the node kind: newline. -/
theorem isNewline_rEBLR (n : Node) :
    isNewline (removeExtraBlankLinesRecursive n) = isNewline n := by
  cases hc : n.children with
  | nil => rw [rEBLR_nil hc]
  | cons c cs => rw [rEBLR_cons hc]; exact isNewline_setChildren n _

/-- The collapse loop gives the same answer for any counter that is
already past the threshold. -/
theorem collapse_high : ∀ (xs : List Node) (k₁ k₂ : Nat),
    2 ≤ k₁ → 2 ≤ k₂ → collapseAux k₁ xs = collapseAux k₂ xs := by
  intro xs
  induction xs with
  | nil => intro k₁ k₂ _ _; rfl
  | cons x xs ih =>
    intro k₁ k₂ h1 h2
    rw [collapseAux, collapseAux]
    by_cases hx : isNewline x = true
    · rw [if_pos hx, if_pos hx, if_neg (by omega), if_neg (by omega)]
      exact ih (k₁ + 1) (k₂ + 1) (by omega) (by omega)
    · rw [if_neg hx, if_neg hx]

/-- The collapse loop is idempotent for counters at most two. -/
theorem collapse_idem : ∀ (xs : List Node) (k : Nat), k ≤ 2 →
    collapseAux k (collapseAux k xs) = collapseAux k xs := by
  intro xs
  induction xs with
  | nil => intro k _; rfl
  | cons x xs ih =>
    intro k hk
    rw [collapseAux]
    by_cases hx : isNewline x = true
    · rw [if_pos hx]
      by_cases h2 : k + 1 ≤ 2
      · rw [if_pos h2, collapseAux]
        rw [if_pos hx, if_pos h2, ih (k + 1) h2]
      · rw [if_neg h2, collapse_high xs (k + 1) k (by omega) (by omega),
          ih k hk]
    · rw [if_neg hx, if_pos (by omega : (0 : Nat) ≤ 2), collapseAux]
      rw [if_neg hx, if_pos (by omega : (0 : Nat) ≤ 2), ih 0 (by omega)]

/-- `removeExtraBlankLines` is idempotent. -/
theorem removeExtraBlankLines_idem (xs : List Node) :
    removeExtraBlankLines (removeExtraBlankLines xs) =
      removeExtraBlankLines xs := by
  unfold removeExtraBlankLines
  exact collapse_idem xs 0 (by omega)

/-- The collapse loop commutes with a newline-kind-preserving map. -/
theorem collapseAux_map {f : Node → Node}
    (hnl : ∀ x, isNewline (f x) = isNewline x) :
    ∀ (xs : List Node) (k : Nat),
    collapseAux k (xs.map f) = (collapseAux k xs).map f := by
  intro xs
  induction xs with
  | nil => intro k; rfl
  | cons x xs ih =>
    intro k
    rw [List.map_cons, collapseAux, collapseAux]
    rw [hnl x]
    by_cases hx : isNewline x = true
    · rw [if_pos hx]
      by_cases h2 : k + 1 ≤ 2
      · rw [if_pos h2, if_pos h2, List.map_cons, ih]
      · rw [if_neg h2, if_neg h2, ih]
    · rw [if_neg hx]
      rw [if_pos (by omega : (0 : Nat) ≤ 2), if_pos (by omega : (0 : Nat) ≤ 2),
        List.map_cons, ih]

/-- `removeExtraBlankLines` commutes with a newline-kind-preserving
map. -/
theorem removeExtraBlankLines_map {f : Node → Node}
    (hnl : ∀ x, isNewline (f x) = isNewline x) (xs : List Node) :
    removeExtraBlankLines (xs.map f) =
      (removeExtraBlankLines xs).map f := by
  unfold removeExtraBlankLines
  exact collapseAux_map hnl xs 0
/-- Fueled idempotence of `removeTrailingNewlines`. -/
theorem rTN_idem_aux : ∀ (k : Nat) (n : Node), nodeSize n ≤ k →
    removeTrailingNewlines (removeTrailingNewlines n) =
      removeTrailingNewlines n := by
  intro k
  induction k with
  | zero => intro n h; exact absurd h (by have := nodeSize_pos n; omega)
  | succ k ih =>
    intro n hk
    cases hc : n.children with
    | nil =>
      have hid := rTN_nil hc
      rw [hid]
      exact hid
    | cons c cs =>
      have hcomp : isSeqComposite n = true :=
        composite_of_children_ne_nil (by rw [hc]; simp)
      rw [rTN_cons hc]
      cases hX : trimTrailing (c :: cs) with
      | nil =>
        exact rTN_nil (by rw [children_setChildren hcomp]; rfl)
      | cons y ys =>
        have hcm : (n.setChildren ((y :: ys).map
            removeTrailingNewlines)).children =
            removeTrailingNewlines y :: List.map removeTrailingNewlines ys := by
          rw [children_setChildren hcomp, List.map_cons]
        rw [rTN_cons hcm, ← List.map_cons,
          trimTrailing_map isNewline_rTN isComment_rTN, ← hX,
          trimTrailing_idem, setChildren_setChildren]
        congr 1
        rw [List.map_map]
        apply List.map_congr_left
        intro a ha
        have hs : nodeSize a ≤ k := by
          have h2 : a ∈ n.children := by
            rw [hc]
            exact mem_of_mem_trimTrailing ha
          have := nodeSize_lt_of_mem_children h2
          omega
        exact ih a hs

/-- `removeTrailingNewlines` is idempotent. -/
theorem removeTrailingNewlines_idem (n : Node) :
    removeTrailingNewlines (removeTrailingNewlines n) =
      removeTrailingNewlines n :=
  rTN_idem_aux (nodeSize n) n le_rfl

/-- Fueled idempotence of `removeExtraBlankLinesRecursive`. -/
theorem rEBLR_idem_aux : ∀ (k : Nat) (n : Node), nodeSize n ≤ k →
    removeExtraBlankLinesRecursive (removeExtraBlankLinesRecursive n) =
      removeExtraBlankLinesRecursive n := by
  intro k
  induction k with
  | zero => intro n h; exact absurd h (by have := nodeSize_pos n; omega)
  | succ k ih =>
    intro n hk
    cases hc : n.children with
    | nil =>
      have hid := rEBLR_nil hc
      rw [hid]
      exact hid
    | cons c cs =>
      have hcomp : isSeqComposite n = true :=
        composite_of_children_ne_nil (by rw [hc]; simp)
      have hsub : ∀ a, a ∈ (if 2 < (c :: cs).length then
          removeExtraBlankLines (c :: cs) else (c :: cs)) → a ∈ c :: cs := by
        intro a ha
        by_cases hoc : 2 < (c :: cs).length
        · rw [if_pos hoc] at ha
          exact mem_of_mem_collapseAux ha
        · rw [if_neg hoc] at ha
          exact ha
      rw [rEBLR_cons hc]
      cases hX : (if 2 < (c :: cs).length then
          removeExtraBlankLines (c :: cs) else (c :: cs)) with
      | nil =>
        exact rEBLR_nil (by rw [children_setChildren hcomp]; rfl)
      | cons y ys =>
        have hcm : (n.setChildren ((y :: ys).map
              removeExtraBlankLinesRecursive)).children =
            removeExtraBlankLinesRecursive y ::
              List.map removeExtraBlankLinesRecursive ys := by
          rw [children_setChildren hcomp, List.map_cons]
        have hmapid : (List.map removeExtraBlankLinesRecursive
            (y :: ys)).map removeExtraBlankLinesRecursive =
            List.map removeExtraBlankLinesRecursive (y :: ys) := by
          rw [List.map_map]
          apply List.map_congr_left
          intro a ha
          have hs : nodeSize a ≤ k := by
            have h2 : a ∈ n.children := by
              rw [hc]
              exact hsub a (by rw [hX]; exact ha)
            have := nodeSize_lt_of_mem_children h2
            omega
          exact ih a hs
        rw [rEBLR_cons hcm, ← List.map_cons, List.length_map,
          setChildren_setChildren]
        by_cases h2 : 2 < (y :: ys).length
        · rw [if_pos h2,
            removeExtraBlankLines_map isNewline_rEBLR (y :: ys), ← hX]
          by_cases hoc : 2 < (c :: cs).length
          · rw [if_pos hoc] at hX ⊢
            rw [removeExtraBlankLines_idem, hX, hmapid]
          · rw [if_neg hoc] at hX
            rw [← hX] at h2
            exact absurd h2 hoc
        · rw [if_neg h2, hmapid]
/-- `fixDefnArglist` is idempotent: after the swap the third child is the
argument vector, so the guard rejects a second rewrite. -/
theorem fixDefnArglist_idem (n : Node) :
    fixDefnArglist (fixDefnArglist n) = fixDefnArglist n := by
  by_cases h5 : n.children.length < 5
  · have hid : fixDefnArglist n = n := by
      unfold fixDefnArglist
      dsimp only
      rw [if_pos h5]
    rw [hid]
    exact hid
  · by_cases hg : isNewline (n.children.getD 2 .NewlineNode) = false ∨
        isNewline (n.children.getD 4 .NewlineNode) = true
    · have hid : fixDefnArglist n = n := by
        unfold fixDefnArglist
        dsimp only
        rw [if_neg h5, if_pos hg]
      rw [hid]
      exact hid
    · by_cases hv : isVector (n.children.getD 3 .NewlineNode) = false
      · have hid : fixDefnArglist n = n := by
          unfold fixDefnArglist
          dsimp only
          rw [if_neg h5, if_neg hg, if_pos hv]
        rw [hid]
        exact hid
      · obtain ⟨a, b, c, d, e, rest, hl⟩ :=
          @exists_five_head n.children (by omega)
        have hcomp : isSeqComposite n = true :=
          composite_of_children_ne_nil (by rw [hl]; simp)
        have hd : isVector d = true := by
          rw [hl] at hv
          simp only [List.getD, List.getElem?_cons_succ,
            List.getElem?_cons_zero, List.get?_cons_succ,
            List.get?_cons_zero, Option.getD_some] at hv
          revert hv
          cases isVector d <;> simp
        have hdn : isNewline d = false := by
          cases d <;> simp [isVector] at hd <;> rfl
        have hstep : fixDefnArglist n =
            n.setChildren (a :: b :: d :: c :: e :: rest) := by
          unfold fixDefnArglist
          dsimp only
          rw [if_neg h5, if_neg hg, if_neg hv, hl]
          simp only [List.getD, List.getElem?_cons_succ,
            List.getElem?_cons_zero, List.get?_cons_succ,
            List.get?_cons_zero, Option.getD_some, List.set]
        rw [hstep]
        unfold fixDefnArglist
        dsimp only
        rw [children_setChildren hcomp]
        rw [if_neg (by simp only [List.length_cons]; omega)]
        rw [if_pos (Or.inl (by
          simp only [List.getD, List.getElem?_cons_succ,
            List.getElem?_cons_zero, List.get?_cons_succ,
            List.get?_cons_zero, Option.getD_some]
          exact hdn))]

/-- `fixDefmethodDispatchVal` is idempotent: after either rewrite the
third child is the keyword dispatch value, so the guard rejects a second
rewrite. -/
theorem fixDefmethodDispatchVal_idem (n : Node) :
    fixDefmethodDispatchVal (fixDefmethodDispatchVal n) =
      fixDefmethodDispatchVal n := by
  by_cases h5 : n.children.length < 5
  · have hid : fixDefmethodDispatchVal n = n := by
      unfold fixDefmethodDispatchVal
      dsimp only
      rw [if_pos h5]
    rw [hid]
    exact hid
  · by_cases hg : isNewline (n.children.getD 2 .NewlineNode) = false
    · have hid : fixDefmethodDispatchVal n = n := by
        unfold fixDefmethodDispatchVal
        dsimp only
        rw [if_neg h5, if_pos hg]
      rw [hid]
      exact hid
    · by_cases hk : isKeyword (n.children.getD 3 .NewlineNode) = false
      · have hid : fixDefmethodDispatchVal n = n := by
          unfold fixDefmethodDispatchVal
          dsimp only
          rw [if_neg h5, if_neg hg, if_pos hk]
        rw [hid]
        exact hid
      · obtain ⟨a, b, c, d, e, rest, hl⟩ :=
          @exists_five_head n.children (by omega)
        have hcomp : isSeqComposite n = true :=
          composite_of_children_ne_nil (by rw [hl]; simp)
        have hd : isKeyword d = true := by
          rw [hl] at hk
          simp only [List.getD, List.getElem?_cons_succ,
            List.getElem?_cons_zero, List.get?_cons_succ,
            List.get?_cons_zero, Option.getD_some] at hk
          revert hk
          cases isKeyword d <;> simp
        have hdn : isNewline d = false := by
          cases d <;> simp [isKeyword] at hd <;> rfl
        by_cases h4 : isNewline (n.children.getD 4 .NewlineNode) = true
        · have hstep : fixDefmethodDispatchVal n =
              n.setChildren (a :: b :: d :: e :: rest) := by
            unfold fixDefmethodDispatchVal
            dsimp only
            rw [if_neg h5, if_neg hg, if_neg hk, if_pos h4, hl]
            rfl
          rw [hstep]
          unfold fixDefmethodDispatchVal
          dsimp only
          rw [children_setChildren hcomp]
          by_cases hr5 : (a :: b :: d :: e :: rest).length < 5
          · rw [if_pos hr5]
          · rw [if_neg hr5]
            rw [if_pos (by
              simp only [List.getD, List.getElem?_cons_succ,
                List.getElem?_cons_zero, List.get?_cons_succ,
                List.get?_cons_zero, Option.getD_some]
              exact hdn)]
        · have hstep : fixDefmethodDispatchVal n =
              n.setChildren (a :: b :: d :: c :: e :: rest) := by
            unfold fixDefmethodDispatchVal
            dsimp only
            rw [if_neg h5, if_neg hg, if_neg hk, if_neg h4, hl]
            simp only [List.getD, List.getElem?_cons_succ,
              List.getElem?_cons_zero, List.get?_cons_succ,
              List.get?_cons_zero, Option.getD_some, List.set]
          rw [hstep]
          unfold fixDefmethodDispatchVal
          dsimp only
          rw [children_setChildren hcomp]
          rw [if_neg (by simp only [List.length_cons]; omega)]
          rw [if_pos (by
            simp only [List.getD, List.getElem?_cons_succ,
              List.getElem?_cons_zero, List.get?_cons_succ,
              List.get?_cons_zero, Option.getD_some]
            exact hdn)]
/-- The sort pass alone maps `sortNS` over the `ns`-form roots. -/
theorem runSingle_sort (t : Tree) :
    runSingle .transformSortImportRequire t =
      ⟨t.roots.map (fun r =>
        if fnFormSymbol r "ns" then sortNS r else r)⟩ := by
  unfold runSingle applyTransforms applyToRoot
  simp

/-- The trailing-newline pass alone maps `removeTrailingNewlines` over
the roots. -/
theorem runSingle_rTN (t : Tree) :
    runSingle .transformRemoveTrailingNewlines t =
      ⟨t.roots.map removeTrailingNewlines⟩ := by
  unfold runSingle applyTransforms applyToRoot
  simp

/-- The defn-arglist pass alone maps `fixDefnArglist` over the
`defn`-form roots. -/
theorem runSingle_defn (t : Tree) :
    runSingle .transformFixDefnArglistNewline t =
      ⟨t.roots.map (fun r =>
        if fnFormSymbol r "defn" then fixDefnArglist r else r)⟩ := by
  unfold runSingle applyTransforms applyToRoot
  simp

/-- The defmethod pass alone maps `fixDefmethodDispatchVal` over the
`defmethod`-form roots. -/
theorem runSingle_defmethod (t : Tree) :
    runSingle .transformFixDefmethodDispatchValNewline t =
      ⟨t.roots.map (fun r =>
        if fnFormSymbol r "defmethod" then fixDefmethodDispatchVal r
        else r)⟩ := by
  unfold runSingle applyTransforms applyToRoot
  simp

/-- The blank-line pass alone collapses inside every root, then across
the top-level forms. -/
theorem runSingle_blank (t : Tree) :
    runSingle .transformRemoveExtraBlankLines t =
      ⟨removeExtraBlankLines
        (t.roots.map removeExtraBlankLinesRecursive)⟩ := by
  unfold runSingle applyTransforms applyToRoot
  simp
/-- Inserting into the reversed sorted prefix keeps it locally sorted,
when the new element is never mutually `less` with a prefix element. -/
theorem insertRight_chain {less : ImportRequire → ImportRequire → Bool}
    (x : ImportRequire) : ∀ (acc : List ImportRequire),
    (∀ y ∈ acc, ¬(less x y = true ∧ less y x = true)) →
    List.Chain' (fun a b => less a b = false) acc →
    List.Chain' (fun a b => less a b = false) (insertRight less x acc) := by
  intro acc
  induction acc with
  | nil => intro _ _; exact List.chain'_singleton x
  | cons y ys ih =>
    intro hasym hch
    rw [insertRight]
    by_cases hxy : less x y = true
    · rw [if_pos hxy]
      have hins := ih (fun z hz => hasym z (List.mem_cons_of_mem y hz))
        hch.tail
      rw [List.chain'_cons']
      refine ⟨?_, hins⟩
      intro z hz
      have hyx : less y x = false := by
        cases hyx2 : less y x with
        | false => rfl
        | true => exact absurd ⟨hxy, hyx2⟩ (hasym y (List.mem_cons_self y ys))
      cases ys with
      | nil =>
        simp only [insertRight, Option.mem_def, List.head?_cons,
          Option.some.injEq] at hz
        rw [← hz]
        exact hyx
      | cons w ws =>
        rw [insertRight] at hz
        by_cases hxw : less x w = true
        · rw [if_pos hxw] at hz
          simp only [Option.mem_def, List.head?_cons,
            Option.some.injEq] at hz
          rw [← hz]
          rw [List.chain'_cons] at hch
          exact hch.1
        · rw [if_neg hxw] at hz
          simp only [Option.mem_def, List.head?_cons,
            Option.some.injEq] at hz
          rw [← hz]
          exact hyx
    · rw [if_neg hxy]
      rw [List.chain'_cons]
      refine ⟨?_, hch⟩
      cases hxy2 : less x y with
      | false => rfl
      | true => exact absurd hxy2 hxy

/-- The insertion fold keeps the reversed accumulator locally sorted
under pairwise non-mutual `less`. -/
theorem foldl_insertRight_chain {less : ImportRequire → ImportRequire → Bool} :
    ∀ (l acc : List ImportRequire),
    List.Pairwise (fun a b => ¬(less a b = true ∧ less b a = true)) l →
    (∀ x ∈ l, ∀ y ∈ acc, ¬(less x y = true ∧ less y x = true)) →
    List.Chain' (fun a b => less a b = false) acc →
    List.Chain' (fun a b => less a b = false)
      (l.foldl (fun acc x => insertRight less x acc) acc) := by
  intro l
  induction l with
  | nil => intro acc _ _ h; exact h
  | cons x xs ih =>
    intro acc hpw hcross hch
    rw [List.foldl_cons]
    apply ih
    · exact hpw.of_cons
    · intro x' hx' y hy
      have hy2 : y ∈ x :: acc :=
        (insertRight_perm less x acc).mem_iff.mp hy
      rcases List.mem_cons.mp hy2 with rfl | hy3
      · intro hcon
        exact (List.pairwise_cons.mp hpw).1 x' hx' ⟨hcon.2, hcon.1⟩
      · exact hcross x' (List.mem_cons_of_mem x hx') y hy3
    · exact insertRight_chain x acc
        (fun y hy => hcross x (List.mem_cons_self x xs) y hy) hch

/-- The stable sort's output is locally sorted under pairwise non-mutual
`less`. -/
theorem sortStable_chain {less : ImportRequire → ImportRequire → Bool}
    (l : List ImportRequire)
    (hpw : List.Pairwise
      (fun a b => ¬(less a b = true ∧ less b a = true)) l) :
    List.Chain' (fun a b => less b a = false) (sortStable less l) := by
  rw [sortStable, List.chain'_reverse]
  exact foldl_insertRight_chain l [] hpw
    (fun x _ y hy => absurd hy (List.not_mem_nil y)) List.chain'_nil

/-- The insertion fold is the reversed identity on a locally sorted
list whose head is not `less` than the accumulator's head. -/
theorem foldl_insertRight_sorted {less : ImportRequire → ImportRequire → Bool} :
    ∀ (l acc : List ImportRequire),
    List.Chain' (fun a b => less b a = false) l →
    (∀ x, l.head? = some x → ∀ y, acc.head? = some y → less x y = false) →
    l.foldl (fun acc x => insertRight less x acc) acc = l.reverse ++ acc := by
  intro l
  induction l with
  | nil => intro acc _ _; simp
  | cons x xs ih =>
    intro acc hch hlink
    rw [List.foldl_cons]
    have hx : insertRight less x acc = x :: acc := by
      cases acc with
      | nil => rfl
      | cons y ys =>
        rw [insertRight, hlink x rfl y rfl]
        simp
    rw [hx, ih (x :: acc) hch.tail ?link]
    · simp
    case link =>
      intro x' hx' y hy
      simp only [List.head?_cons, Option.some.injEq] at hy
      rw [← hy]
      rw [List.chain'_cons'] at hch
      exact hch.1 x' hx'

/-- The stable sort is the identity on a locally sorted list. -/
theorem sortStable_eq_self {less : ImportRequire → ImportRequire → Bool}
    (l : List ImportRequire)
    (hch : List.Chain' (fun a b => less b a = false) l) :
    sortStable less l = l := by
  rw [sortStable, foldl_insertRight_sorted l [] hch
    (fun x _ y hy => by simp at hy)]
  simp

/-- The stable sort is idempotent whenever no two distinct entries are
mutually `less`. -/
theorem sortStable_idem_of_pairwise
    {less : ImportRequire → ImportRequire → Bool}
    (l : List ImportRequire)
    (hpw : List.Pairwise
      (fun a b => ¬(less a b = true ∧ less b a = true)) l) :
    sortStable less (sortStable less l) = sortStable less l :=
  sortStable_eq_self _ (sortStable_chain l hpw)
/-- `setBesideLast` on a list ending in a given entry fills that entry's
trailing-comment slot. -/
theorem setBesideLast_append : ∀ (xs : List ImportRequire)
    (ca : List Node) (ob : Option Node) (nd c : Node),
    setBesideLast (xs ++ [⟨ca, ob, nd⟩]) c = xs ++ [⟨ca, some c, nd⟩] := by
  intro xs
  induction xs with
  | nil => intro ca ob nd c; rfl
  | cons x xs ih =>
    intro ca ob nd c
    simp only [List.cons_append]
    cases hx : xs ++ [(⟨ca, ob, nd⟩ : ImportRequire)] with
    | nil => simp at hx
    | cons z zs =>
      show x :: setBesideLast (z :: zs) c = _
      rw [← hx, ih]

/-- A `partStep` newline step resets the flag and keeps the rest. -/
theorem partStep_newline (st : List ImportRequire × List Node × Bool) :
    partStep st .NewlineNode = (st.1, st.2.1, false) := by
  obtain ⟨a, b, c⟩ := st
  rw [partStep, if_neg (by simp [isComment]), if_pos (by rfl)]

/-- Folding the partition step over re-emitted comment pairs appends the
comments to the pending line comments. -/
theorem commentPairs_foldl : ∀ (cs : List Node),
    (∀ c ∈ cs, isComment c = true) →
    ∀ (rest2 : List Node) (acc : List ImportRequire) (lcs : List Node),
    (commentPairs cs ++ rest2).foldl partStep (acc, lcs, false) =
      rest2.foldl partStep (acc, lcs ++ cs, false) := by
  intro cs
  induction cs with
  | nil => intro _ rest2 acc lcs; rw [commentPairs]; simp
  | cons c cs ih =>
    intro hcs rest2 acc lcs
    rw [commentPairs]
    simp only [List.cons_append]
    rw [List.foldl_cons, partStep,
      if_pos (hcs c (List.mem_cons_self c cs)),
      if_neg (fun h => Bool.noConfusion h)]
    rw [List.foldl_cons, partStep_newline]
    rw [ih (fun d hd => hcs d (List.mem_cons_of_mem c hd)) rest2 acc
      (lcs ++ [c])]
    simp

/-- Folding the partition step over the re-emitted entry blocks appends
the entries unchanged. -/
theorem blocksOf_foldl : ∀ (s : List ImportRequire),
    (∀ ir ∈ s, WfIR ir) →
    ∀ (rest2 : List Node) (acc : List ImportRequire),
    (blocksOf s ++ rest2).foldl partStep (acc, [], false) =
      rest2.foldl partStep (acc ++ s, [], false) := by
  intro s
  induction s with
  | nil => intro _ rest2 acc; rw [blocksOf]; simp
  | cons ir irs ih =>
    intro hwf rest2 acc
    have hwfir := hwf ir (List.mem_cons_self ir irs)
    have hsem : isNewline ir.node = false ∧ isComment ir.node = false := by
      have h3 := hwfir.2.2
      simp [isSemantic] at h3
      exact h3
    rw [blocksOf, List.append_assoc, blockOf]
    simp only [List.append_assoc, List.cons_append, List.singleton_append,
      List.nil_append]
    rw [commentPairs_foldl ir.commentsAbove hwfir.1]
    rw [List.foldl_cons, partStep, if_neg (by rw [hsem.2]; simp),
      if_neg (by rw [hsem.1]; simp)]
    simp only [List.nil_append]
    cases hb : ir.commentBeside with
    | none =>
      have hir : (⟨ir.commentsAbove, none, ir.node⟩ : ImportRequire)
          = ir := by
        rw [← hb]
      show (Node.NewlineNode :: (blocksOf irs ++ rest2)).foldl partStep
        (acc ++ [(⟨ir.commentsAbove, none, ir.node⟩ : ImportRequire)],
          [], true) = _
      rw [List.foldl_cons, partStep_newline, hir,
        ih (fun x hx => hwf x (List.mem_cons_of_mem ir hx)) rest2
          (acc ++ [ir])]
      simp
    | some cn =>
      have hcn : isComment cn = true := hwfir.2.1 cn hb
      have hir2 : (⟨ir.commentsAbove, some cn, ir.node⟩ : ImportRequire)
          = ir := by
        rw [← hb]
      show (cn :: Node.NewlineNode :: (blocksOf irs ++ rest2)).foldl
        partStep
        (acc ++ [(⟨ir.commentsAbove, none, ir.node⟩ : ImportRequire)],
          [], true) = _
      rw [List.foldl_cons, partStep, if_pos hcn, if_pos rfl,
        setBesideLast_append]
      rw [List.foldl_cons, partStep_newline, hir2,
        ih (fun x hx => hwf x (List.mem_cons_of_mem ir hx)) rest2
          (acc ++ [ir])]
      simp

/-- Re-partitioning the rebuilt body recovers the entries and trailing
comments exactly. -/
theorem partition_rebuild (s : List ImportRequire) (tc : List Node)
    (hwf : ∀ ir ∈ s, WfIR ir) (htc : ∀ c ∈ tc, isComment c = true) :
    (blocksOf s ++ commentPairs tc).foldl partStep ([], [], false) =
      (s, tc, false) := by
  rw [blocksOf_foldl s hwf (commentPairs tc) []]
  have := commentPairs_foldl tc htc [] ([] ++ s) []
  rw [List.append_nil] at this
  rw [this]
  simp
/-- The rebuilt children are the keyword followed by a tail whose
partition recovers the entries and trailing comments. -/
theorem partition_of_rebuild_tail (kw : Node) (s : List ImportRequire)
    (tc : List Node) (hwf : ∀ ir ∈ s, WfIR ir)
    (htc : ∀ c ∈ tc, isComment c = true) :
    ∃ tail, rebuildIR kw s tc = kw :: tail ∧
      (partitionIR tail).1 = s ∧ (partitionIR tail).2.1 = tc := by
  have hfull : partitionIR (blocksOf s ++ commentPairs tc) =
      (s, tc, false) := partition_rebuild s tc hwf htc
  rw [rebuildIR]
  split
  · next hcond =>
    have hne : blocksOf s ++ commentPairs tc ≠ [] := by
      intro he
      rw [he] at hcond
      simp at hcond
    have hlast := getLast?_rebuild_body hne
    have hbody := List.dropLast_append_getLast? Node.NewlineNode
      (Option.mem_def.mpr hlast)
    refine ⟨(blocksOf s ++ commentPairs tc).dropLast, ?_, ?_, ?_⟩
    · cases hcb : blocksOf s ++ commentPairs tc with
      | nil => exact absurd hcb hne
      | cons z zs => rfl
    · have hsplit : partitionIR (blocksOf s ++ commentPairs tc) =
          partStep (partitionIR
            ((blocksOf s ++ commentPairs tc).dropLast)) .NewlineNode := by
        conv_lhs => rw [← hbody]
        rw [partitionIR, partitionIR, List.foldl_append, List.foldl_cons,
          List.foldl_nil]
      rw [hfull, partStep_newline] at hsplit
      exact (congrArg Prod.fst hsplit).symm
    · have hsplit : partitionIR (blocksOf s ++ commentPairs tc) =
          partStep (partitionIR
            ((blocksOf s ++ commentPairs tc).dropLast)) .NewlineNode := by
        conv_lhs => rw [← hbody]
        rw [partitionIR, partitionIR, List.foldl_append, List.foldl_cons,
          List.foldl_nil]
      rw [hfull, partStep_newline] at hsplit
      have := congrArg (fun p => p.2.1) hsplit
      exact this.symm
  · exact ⟨blocksOf s ++ commentPairs tc, rfl, by rw [hfull], by rw [hfull]⟩

/-- Unfolding `sortImportRequire` on a node with children. -/
theorem sortImportRequire_cons {n kw : Node} {rest : List Node}
    (hch : n.children = kw :: rest) :
    sortImportRequire n = n.setChildren
      (rebuildIR kw (sortStable lessEntry (partitionIR rest).1)
        (partitionIR rest).2.1) := by
  unfold sortImportRequire
  rw [hch]

/-- A node passing `fnFormKeyword` is a list headed by one of the
keywords. -/
theorem fnFormKeyword_shape {nd : Node} {names : List String}
    (h : fnFormKeyword nd names = true) :
    ∃ s rs, nd = .ListNode (.KeywordNode s :: rs) ∧
      names.contains s = true := by
  unfold fnFormKeyword at h
  split at h
  · next s rs => exact ⟨s, rs, rfl, h⟩
  · exact absurd h (by simp)

/-- A node passing `fnFormSymbol` is a list headed by the symbol. -/
theorem fnFormSymbol_shape {nd : Node} {name : String}
    (h : fnFormSymbol nd name = true) :
    ∃ s rs, nd = .ListNode (.SymbolNode s :: rs) ∧ (s == name) = true := by
  unfold fnFormSymbol at h
  split at h
  · next s rs => exact ⟨s, rs, rfl, h⟩
  · exact absurd h (by simp)

/-- `sortImportRequire` keeps the leading keyword, hence the
`fnFormKeyword` guard. -/
theorem fnFormKeyword_sortImportRequire {nd : Node} {names : List String}
    (h : fnFormKeyword nd names = true) :
    fnFormKeyword (sortImportRequire nd) names = true := by
  obtain ⟨s, rs, heq, _⟩ := fnFormKeyword_shape h
  subst heq
  have hch : (Node.ListNode (Node.KeywordNode s :: rs)).children =
      Node.KeywordNode s :: rs := rfl
  rw [sortImportRequire_cons hch]
  have hh := head?_rebuildIR (Node.KeywordNode s)
    (sortStable lessEntry (partitionIR rs).1) (partitionIR rs).2.1
  cases hr : rebuildIR (Node.KeywordNode s)
      (sortStable lessEntry (partitionIR rs).1) (partitionIR rs).2.1 with
  | nil => rw [hr] at hh; exact absurd hh (by simp)
  | cons z zs =>
    rw [hr] at hh
    simp only [List.head?_cons, Option.some.injEq] at hh
    rw [hh]
    exact h

/-- `sortImportRequire` is idempotent on a require/import list whose
entries are pairwise not mutually `less`. -/
theorem sortImportRequire_idem {n kw : Node} {rest : List Node}
    (hch : n.children = kw :: rest)
    (hasym : List.Pairwise
      (fun a b => ¬(lessEntry a b = true ∧ lessEntry b a = true))
      (partitionIR rest).1) :
    sortImportRequire (sortImportRequire n) = sortImportRequire n := by
  have hcomp : isSeqComposite n = true :=
    composite_of_children_ne_nil (by rw [hch]; simp)
  have hwfp := partition_wf rest [] [] false
    (by intro ir h; cases h) (by intro c h; cases h)
  have hwf1 : ∀ ir ∈ (partitionIR rest).1, WfIR ir := hwfp.1
  have htc1 : ∀ c ∈ (partitionIR rest).2.1, isComment c = true := hwfp.2
  have hwfs : ∀ ir ∈ sortStable lessEntry (partitionIR rest).1, WfIR ir :=
    fun ir hir =>
      hwf1 ir ((sortStable_perm lessEntry (partitionIR rest).1).mem_iff.mp
        hir)
  obtain ⟨tail, htail, hp1, hp2⟩ := partition_of_rebuild_tail kw
    (sortStable lessEntry (partitionIR rest).1) (partitionIR rest).2.1
    hwfs htc1
  rw [sortImportRequire_cons hch]
  have hchm : (n.setChildren (rebuildIR kw
      (sortStable lessEntry (partitionIR rest).1)
      (partitionIR rest).2.1)).children = kw :: tail := by
    rw [children_setChildren hcomp, htail]
  rw [sortImportRequire_cons hchm, hp1, hp2,
    sortStable_idem_of_pairwise (partitionIR rest).1 hasym,
    setChildren_setChildren]

/-- `sortNS` keeps the leading `ns` symbol, hence the guard. -/
theorem fnFormSymbol_sortNS {root : Node}
    (h : fnFormSymbol root "ns" = true) :
    fnFormSymbol (sortNS root) "ns" = true := by
  obtain ⟨s, rs, heq, _⟩ := fnFormSymbol_shape h
  subst heq
  have hstep : sortNS (Node.ListNode (Node.SymbolNode s :: rs)) =
      Node.ListNode (Node.SymbolNode s :: rs.map (fun nd =>
        if fnFormKeyword nd [":require", ":import"] then
          sortImportRequire nd else nd)) := by
    unfold sortNS
    rfl
  rw [hstep]
  exact h

/-- `sortNS` is idempotent when each require/import child has pairwise
not-mutually-`less` entries. -/
theorem sortNS_idem {root : Node}
    (H : ∀ nd ∈ root.children.drop 1,
      fnFormKeyword nd [":require", ":import"] = true →
      List.Pairwise
        (fun a b => ¬(lessEntry a b = true ∧ lessEntry b a = true))
        (partitionIR (nd.children.drop 1)).1) :
    sortNS (sortNS root) = sortNS root := by
  cases hc : root.children with
  | nil =>
    have hid : sortNS root = root := by
      unfold sortNS
      rw [hc]
    rw [hid]
    exact hid
  | cons c0 rest =>
    have hcomp : isSeqComposite root = true :=
      composite_of_children_ne_nil (by rw [hc]; simp)
    have hstep : sortNS root = root.setChildren (c0 :: rest.map (fun nd =>
        if fnFormKeyword nd [":require", ":import"] then
          sortImportRequire nd else nd)) := by
      unfold sortNS
      rw [hc]
    rw [hstep]
    have hchm : (root.setChildren (c0 :: rest.map (fun nd =>
        if fnFormKeyword nd [":require", ":import"] then
          sortImportRequire nd else nd))).children =
        c0 :: rest.map (fun nd =>
          if fnFormKeyword nd [":require", ":import"] then
            sortImportRequire nd else nd) := children_setChildren hcomp _
    have hstep2 : sortNS (root.setChildren (c0 :: rest.map (fun nd =>
        if fnFormKeyword nd [":require", ":import"] then
          sortImportRequire nd else nd))) =
        (root.setChildren (c0 :: rest.map (fun nd =>
          if fnFormKeyword nd [":require", ":import"] then
            sortImportRequire nd else nd))).setChildren
          (c0 :: (rest.map (fun nd =>
            if fnFormKeyword nd [":require", ":import"] then
              sortImportRequire nd else nd)).map (fun nd =>
            if fnFormKeyword nd [":require", ":import"] then
              sortImportRequire nd else nd)) := by
      unfold sortNS
      rw [hchm]
    rw [hstep2, setChildren_setChildren]
    have hmaps : (rest.map (fun nd =>
        if fnFormKeyword nd [":require", ":import"] then
          sortImportRequire nd else nd)).map (fun nd =>
          if fnFormKeyword nd [":require", ":import"] then
            sortImportRequire nd else nd) =
        rest.map (fun nd =>
          if fnFormKeyword nd [":require", ":import"] then
            sortImportRequire nd else nd) := by
      rw [List.map_map]
      apply List.map_congr_left
      intro nd hnd
      show (if fnFormKeyword (if fnFormKeyword nd [":require", ":import"]
          then sortImportRequire nd else nd) [":require", ":import"] then
          sortImportRequire (if fnFormKeyword nd [":require", ":import"]
            then sortImportRequire nd else nd)
        else (if fnFormKeyword nd [":require", ":import"] then
          sortImportRequire nd else nd)) = _
      by_cases hkw : fnFormKeyword nd [":require", ":import"] = true
      · rw [if_pos hkw, if_pos (fnFormKeyword_sortImportRequire hkw)]
        obtain ⟨s, rs, heq, _⟩ := fnFormKeyword_shape hkw
        have hch2 : nd.children = Node.KeywordNode s :: rs := by
          rw [heq]
          rfl
        have hH := H nd (by rw [hc]; simpa using hnd) hkw
        have hdrop : nd.children.drop 1 = rs := by
          rw [hch2]
          rfl
        rw [hdrop] at hH
        exact sortImportRequire_idem hch2 hH
      · rw [if_neg hkw, if_neg hkw]
    rw [hmaps]
/-- Claim C7 (amended): each of the trailing-newline, defn-arglist,
defmethod-dispatch-val and blank-line passes is idempotent on every
tree; the import/require sort pass is idempotent on every tree whose
require/import lists each have at most twenty entries — the regime in
which `sort.Stable` is exactly the insertion sort modelled here — with
no two entries mutually `Less`.  The mutual-`Less` condition fails
exactly when two entries are both empty vectors/lists: see the
counterexample, where the sort pass flips two empty entries back and
forth forever. -/
theorem claim_C7_amended :
    (∀ t : Tree, runSingle .transformRemoveTrailingNewlines
        (runSingle .transformRemoveTrailingNewlines t) =
      runSingle .transformRemoveTrailingNewlines t) ∧
    (∀ t : Tree, runSingle .transformFixDefnArglistNewline
        (runSingle .transformFixDefnArglistNewline t) =
      runSingle .transformFixDefnArglistNewline t) ∧
    (∀ t : Tree, runSingle .transformFixDefmethodDispatchValNewline
        (runSingle .transformFixDefmethodDispatchValNewline t) =
      runSingle .transformFixDefmethodDispatchValNewline t) ∧
    (∀ t : Tree, runSingle .transformRemoveExtraBlankLines
        (runSingle .transformRemoveExtraBlankLines t) =
      runSingle .transformRemoveExtraBlankLines t) ∧
    (∀ t : Tree,
      (∀ root ∈ t.roots, fnFormSymbol root "ns" = true →
        ∀ nd ∈ root.children.drop 1,
        fnFormKeyword nd [":require", ":import"] = true →
        (partitionIR (nd.children.drop 1)).1.length ≤ 20 ∧
        List.Pairwise
          (fun a b => ¬(lessEntry a b = true ∧ lessEntry b a = true))
          (partitionIR (nd.children.drop 1)).1) →
      runSingle .transformSortImportRequire
        (runSingle .transformSortImportRequire t) =
      runSingle .transformSortImportRequire t) := by
  refine ⟨?_, ?_, ?_, ?_, ?_⟩
  · intro t
    rw [runSingle_rTN, runSingle_rTN]
    show Tree.mk ((t.roots.map removeTrailingNewlines).map
      removeTrailingNewlines) = Tree.mk (t.roots.map
        removeTrailingNewlines)
    rw [List.map_map]
    exact congrArg Tree.mk
      (List.map_congr_left (fun a _ => removeTrailingNewlines_idem a))
  · intro t
    rw [runSingle_defn, runSingle_defn]
    show Tree.mk ((t.roots.map (fun r =>
        if fnFormSymbol r "defn" then fixDefnArglist r else r)).map
          (fun r => if fnFormSymbol r "defn" then fixDefnArglist r
            else r)) = _
    rw [List.map_map]
    refine congrArg Tree.mk (List.map_congr_left ?_)
    intro r _
    show (if fnFormSymbol (if fnFormSymbol r "defn" then fixDefnArglist r
        else r) "defn" then fixDefnArglist (if fnFormSymbol r "defn" then
          fixDefnArglist r else r)
      else (if fnFormSymbol r "defn" then fixDefnArglist r else r)) = _
    by_cases h : fnFormSymbol r "defn" = true
    · rw [if_pos h]
      by_cases h2 : fnFormSymbol (fixDefnArglist r) "defn" = true
      · rw [if_pos h2, fixDefnArglist_idem]
      · rw [if_neg h2]
    · rw [if_neg h, if_neg h]
  · intro t
    rw [runSingle_defmethod, runSingle_defmethod]
    show Tree.mk ((t.roots.map (fun r =>
        if fnFormSymbol r "defmethod" then fixDefmethodDispatchVal r
          else r)).map (fun r => if fnFormSymbol r "defmethod" then
            fixDefmethodDispatchVal r else r)) = _
    rw [List.map_map]
    refine congrArg Tree.mk (List.map_congr_left ?_)
    intro r _
    show (if fnFormSymbol (if fnFormSymbol r "defmethod" then
        fixDefmethodDispatchVal r else r) "defmethod" then
        fixDefmethodDispatchVal (if fnFormSymbol r "defmethod" then
          fixDefmethodDispatchVal r else r)
      else (if fnFormSymbol r "defmethod" then fixDefmethodDispatchVal r
        else r)) = _
    by_cases h : fnFormSymbol r "defmethod" = true
    · rw [if_pos h]
      by_cases h2 : fnFormSymbol (fixDefmethodDispatchVal r)
          "defmethod" = true
      · rw [if_pos h2, fixDefmethodDispatchVal_idem]
      · rw [if_neg h2]
    · rw [if_neg h, if_neg h]
  · intro t
    rw [runSingle_blank, runSingle_blank]
    show Tree.mk (removeExtraBlankLines ((removeExtraBlankLines
        (t.roots.map removeExtraBlankLinesRecursive)).map
          removeExtraBlankLinesRecursive)) = _
    have hmap : (removeExtraBlankLines (t.roots.map
        removeExtraBlankLinesRecursive)).map
          removeExtraBlankLinesRecursive =
        removeExtraBlankLines (t.roots.map
          removeExtraBlankLinesRecursive) := by
      have hall : ∀ a ∈ removeExtraBlankLines (t.roots.map
          removeExtraBlankLinesRecursive),
          removeExtraBlankLinesRecursive a = a := by
        intro a ha
        have ha2 : a ∈ t.roots.map removeExtraBlankLinesRecursive :=
          mem_of_mem_collapseAux ha
        obtain ⟨y, _, hy⟩ := List.mem_map.mp ha2
        rw [← hy]
        exact rEBLR_idem_aux (nodeSize y) y le_rfl
      rw [List.map_congr_left hall, List.map_id']
    rw [hmap, removeExtraBlankLines_idem]
  · intro t HT
    rw [runSingle_sort, runSingle_sort]
    show Tree.mk ((t.roots.map (fun r =>
        if fnFormSymbol r "ns" then sortNS r else r)).map (fun r =>
          if fnFormSymbol r "ns" then sortNS r else r)) = _
    rw [List.map_map]
    refine congrArg Tree.mk (List.map_congr_left ?_)
    intro r hr
    show (if fnFormSymbol (if fnFormSymbol r "ns" then sortNS r else r)
        "ns" then sortNS (if fnFormSymbol r "ns" then sortNS r else r)
      else (if fnFormSymbol r "ns" then sortNS r else r)) = _
    by_cases h : fnFormSymbol r "ns" = true
    · rw [if_pos h, if_pos (fnFormSymbol_sortNS h)]
      exact sortNS_idem (fun nd hnd hkw => (HT r hr h nd hnd hkw).2)
    · rw [if_neg h, if_neg h]

/-- Claim C7 witness: on the tree `(ns (:require a))` the sort pass
hypothesis holds (a single entry) and the pass is idempotent. -/
theorem claim_C7_amended_witness :
    runSingle .transformSortImportRequire
      (runSingle .transformSortImportRequire
        ⟨[Node.ListNode [.SymbolNode "ns",
          .ListNode [.KeywordNode ":require", .SymbolNode "a"]]]⟩) =
    runSingle .transformSortImportRequire
      ⟨[Node.ListNode [.SymbolNode "ns",
        .ListNode [.KeywordNode ":require", .SymbolNode "a"]]]⟩ :=
  claim_C7_amended.2.2.2.2
    ⟨[Node.ListNode [.SymbolNode "ns",
      .ListNode [.KeywordNode ":require", .SymbolNode "a"]]]⟩
    (by
      intro root hroot hns nd hnd hkw
      simp only [List.mem_singleton] at hroot
      subst hroot
      have hdrop : (Node.ListNode [Node.SymbolNode "ns",
          Node.ListNode [Node.KeywordNode ":require",
            Node.SymbolNode "a"]]).children.drop 1 =
          [Node.ListNode [Node.KeywordNode ":require",
            Node.SymbolNode "a"]] := rfl
      rw [hdrop] at hnd
      simp only [List.mem_singleton] at hnd
      subst hnd
      have hp : (partitionIR ((Node.ListNode [Node.KeywordNode ":require",
          Node.SymbolNode "a"]).children.drop 1)).1 =
          [⟨[], none, Node.SymbolNode "a"⟩] := rfl
      refine ⟨by rw [hp]; simp, by rw [hp]; simp⟩)

/-- Claim C7 counterexample: the sort pass is not idempotent.  On
`(ns (:require () []))` — two empty seq entries, each `Less` than the
other — one application yields `(ns (:require [] ()))` and a second
application restores the original tree, which differs from the
once-sorted tree. -/
theorem claim_C7_counterexample :
    runSingle .transformSortImportRequire
      ⟨[Node.ListNode [.SymbolNode "ns",
        .ListNode [.KeywordNode ":require", .ListNode [], .NewlineNode,
          .VectorNode []]]]⟩ =
      ⟨[Node.ListNode [.SymbolNode "ns",
        .ListNode [.KeywordNode ":require", .VectorNode [], .NewlineNode,
          .ListNode []]]]⟩ ∧
    runSingle .transformSortImportRequire
      ⟨[Node.ListNode [.SymbolNode "ns",
        .ListNode [.KeywordNode ":require", .VectorNode [], .NewlineNode,
          .ListNode []]]]⟩ =
      ⟨[Node.ListNode [.SymbolNode "ns",
        .ListNode [.KeywordNode ":require", .ListNode [], .NewlineNode,
          .VectorNode []]]]⟩ ∧
    (⟨[Node.ListNode [.SymbolNode "ns",
        .ListNode [.KeywordNode ":require", .VectorNode [], .NewlineNode,
          .ListNode []]]]⟩ : Tree) ≠
      ⟨[Node.ListNode [.SymbolNode "ns",
        .ListNode [.KeywordNode ":require", .ListNode [], .NewlineNode,
          .VectorNode []]]]⟩ :=
  ⟨by with_unfolding_all rfl, by with_unfolding_all rfl, by simp⟩
end GoFormat
